import Mathlib

/-!
# Poseidon MDS-matrix engine

A shallow embedding of `poseidon_mds_matrix<FieldType, Arity, strength>`
(`include/nil/crypto3/hash/detail/poseidon/poseidon_mds_matrix.hpp`) and a
verification development over it.

Conventions of the embedding.

* The element type of the working field is a type `F` with `Field F` and
  decidable equality.  The template constants `state_words`,
  `half_full_rounds` and `part_rounds` come from `poseidon_policy`; they are
  parameters here, with `state_words = Arity + 1`.
* A `ublas::vector` of `state_words` elements is a function on
  `Fin (Arity + 1)`; a `ublas::matrix` is a Mathlib `Matrix`.  `prod` is
  `Matrix.vecMul`, `Matrix.mulVec` or the matrix product, `inner_prod` is
  `Matrix.dotProduct`, `subrange (M, 1, n, 1, n)` is
  `M.submatrix Fin.succ Fin.succ`.
* A function that initialises a function-local static returns
  `Except Failure _`; a function that updates its argument in place returns
  the status of the call together with the content of the argument when the
  call ends.
* `std::size_t` values are natural numbers and the arithmetic on round
  numbers is reduced modulo `2 ^ 64`.
* `BOOST_ASSERT_MSG (expr, msg)` evaluates `expr` only in a build with
  assertions, one that defines neither `NDEBUG` nor `BOOST_DISABLE_ASSERTS`.
  The assertions on `round_number` only read their operands, and the two
  functions that carry them are embedded for a build with assertions: a failed
  assertion ends the call with `Failure.assertion`, before any later statement
  runs, and a call that meets the condition runs the same statements in every
  build.  The assertion of `get_inverse_mds_matrix` has the inversion itself as
  `expr`, so that function and its caller
  `product_with_inverse_mds_matrix_noalias` take the build as the parameter
  `assertions_enabled`.
* The field arithmetic and the LU routines of the linear-algebra library are
  not part of the repository; their definitions here follow the spec.
-/

namespace Poseidon

/-- Ways in which a call ends without a result. -/
inductive Failure where
  /-- The field inversion was asked for the additive identity. -/
  | no_inverse : Failure
  /-- A `BOOST_ASSERT_MSG` did not hold; the argument is its message. -/
  | assertion (msg : String) : Failure
  /-- A `std::array` was indexed outside its extent. -/
  | out_of_range : Failure
  deriving DecidableEq, Repr

/-- Width of `std::size_t` in bits. -/
def size_t_bits : Nat := 64

/-- Sum of two `std::size_t` values. -/
def size_t_add (a b : Nat) : Nat := (a + b) % 2 ^ size_t_bits

/-- Difference of two `std::size_t` values; it wraps around below zero. -/
def size_t_sub (a b : Nat) : Nat := (a + 2 ^ size_t_bits - b % 2 ^ size_t_bits) % 2 ^ size_t_bits

/-- Modelled from the spec: `state_words` of `poseidon_policy` (the policy
header is not under src/), "state_words (arity + 1)". -/
abbrev state_words (Arity : Nat) : Nat := Arity + 1

/-- The type `state_vector_type`. -/
abbrev state_vector_type (F : Type) (Arity : Nat) : Type := Fin (Arity + 1) → F

/-- The type `mds_matrix_type`, at the size `state_words x state_words`. -/
abbrev mds_matrix_type (F : Type) (Arity : Nat) : Type :=
  Matrix (Fin (Arity + 1)) (Fin (Arity + 1)) F

/-- The tuple `equivalent_mds_matrix_type`, `(M', M_0_0, w_hat_list, v_list)`;
`subvectors_collection` is a `std::array` of `part_rounds` vectors. -/
structure equivalent_mds_matrix_type (F : Type) (Arity part_rounds : Nat) where
  M_i : mds_matrix_type F Arity
  M_0_0 : F
  w_hat_list : Fin part_rounds → Fin Arity → F
  v_list : Fin part_rounds → Fin Arity → F

/-- The matrix and the permutation vector that `lu_factorize` leaves behind,
with the value it returns. -/
structure lu_result (F : Type) (n : Nat) where
  m : Matrix (Fin n) (Fin n) F
  pm : Fin n → Fin n
  singular : Nat

/-- The local variables of the loop of `get_equivalent_mds_matrix`. -/
structure optimizer_state (F : Type) (Arity part_rounds : Nat) where
  M_mul : mds_matrix_type F Arity
  M_i : mds_matrix_type F Arity
  M_hat_inverse : Matrix (Fin Arity) (Fin Arity) F
  w_hat_list : Fin part_rounds → Fin Arity → F
  v_list : Fin part_rounds → Fin Arity → F

section Field

variable {F : Type} [Field F] [DecidableEq F]

/-- Modelled from the spec: `get_inverse` of the field element type (the
algebra library is not under src/): "`invert` fails when the operand is the
additive identity". -/
def get_inverse (x : F) : Except Failure F :=
  if x = 0 then Except.error Failure.no_inverse else Except.ok x⁻¹

/-! ## The linear-algebra library

`lu_factorize`, `lu_substitute` and what they call belong to the
linear-algebra library, which is not under src/.  The spec describes them as
"LU-style decomposition with pivoting over the field", which "returns failure
if no pivot can be found at some elimination step". -/

/-- Modelled from the spec: the pivot search of the LU factorisation (the
library is not under src/).  The candidates for column `i` are the rows at or
below the diagonal; the first one with a non-zero entry is taken, and row `i`
itself when "no pivot can be found". -/
def pivot_row {n : Nat} (m : Matrix (Fin n) (Fin n) F) (i : Fin n) : Fin n :=
  ((List.finRange n).find? (fun r => decide (i ≤ r ∧ m r i ≠ 0))).getD i

/-- Modelled from the spec: the rank-one update of the rows and columns
behind `i`, the last statement of an elimination step of `lu_factorize`. -/
def lu_eliminate {n : Nat} (m : Matrix (Fin n) (Fin n) F) (i : Fin n) :
    Matrix (Fin n) (Fin n) F :=
  fun r c => if i < r ∧ i < c then m r c - m r i * m i c else m r c

/-- Modelled from the spec: one elimination step of `lu_factorize` (the
library is not under src/), the body of its loop over the columns.  With a
pivot, the pivot row is swapped into place (and recorded in `pm`) and the
column below the diagonal is scaled; without one, the step is recorded in
`singular` if it is the first. -/
def lu_factorize_step {n : Nat} (st : lu_result F n) (i : Fin n) : lu_result F n :=
  let i_norm_inf := pivot_row st.m i
  if st.m i_norm_inf i ≠ 0 then
    let m1 : Matrix (Fin n) (Fin n) F :=
      if i_norm_inf ≠ i then fun r c => st.m (Equiv.swap i i_norm_inf r) c else st.m
    let m_inv : F := 1 / m1 i i
    let m2 : Matrix (Fin n) (Fin n) F :=
      fun r c => if i < r ∧ c = i then m1 r c * m_inv else m1 r c
    { m := lu_eliminate m2 i
      pm := if i_norm_inf ≠ i then Function.update st.pm i i_norm_inf else st.pm
      singular := st.singular }
  else
    { m := lu_eliminate st.m i
      pm := st.pm
      singular := if st.singular = 0 then i.val + 1 else st.singular }

/-- Modelled from the spec: `lu_factorize (m, pm)` (the library is not under
src/): LU decomposition with pivoting, in place; `singular` is `0` when every
step found a pivot and otherwise one more than the first step that did not. -/
def lu_factorize {n : Nat} (m : Matrix (Fin n) (Fin n) F) : lu_result F n :=
  (List.finRange n).foldl lu_factorize_step { m := m, pm := id, singular := 0 }

/-- Modelled from the spec: `swap_rows (pm, mv)`, the row exchanges recorded
by the factorisation replayed on `mv`. -/
def swap_rows {n : Nat} (pm : Fin n → Fin n) (mv : Matrix (Fin n) (Fin n) F) :
    Matrix (Fin n) (Fin n) F :=
  (List.finRange n).foldl
    (fun mv i => if i ≠ pm i then fun r c => mv (Equiv.swap i (pm i) r) c else mv) mv

/-- Modelled from the spec: one column of the forward substitution with the
unit lower triangle of `e1`. -/
def solve_unit_lower_step {n : Nat} (e1 e2 : Matrix (Fin n) (Fin n) F) (k : Fin n) :
    Matrix (Fin n) (Fin n) F :=
  fun r l => if k < r then e2 r l - e1 r k * e2 k l else e2 r l

/-- Modelled from the spec: `inplace_solve (e1, e2, unit_lower_tag ())`,
forward substitution, the columns of `e1` taken in ascending order. -/
def inplace_solve_unit_lower {n : Nat} (e1 e2 : Matrix (Fin n) (Fin n) F) :
    Matrix (Fin n) (Fin n) F :=
  (List.finRange n).foldl (solve_unit_lower_step e1) e2

/-- Modelled from the spec: one column of the back substitution with the
upper triangle of `e1`. -/
def solve_upper_step {n : Nat} (e1 : Matrix (Fin n) (Fin n) F) (k : Fin n)
    (e2 : Matrix (Fin n) (Fin n) F) : Matrix (Fin n) (Fin n) F :=
  fun r l =>
    if r = k then e2 k l / e1 k k
    else if r < k then e2 r l - e1 r k * (e2 k l / e1 k k)
    else e2 r l

/-- Modelled from the spec: `inplace_solve (e1, e2, upper_tag ())`, back
substitution, the columns of `e1` taken in descending order. -/
def inplace_solve_upper {n : Nat} (e1 e2 : Matrix (Fin n) (Fin n) F) :
    Matrix (Fin n) (Fin n) F :=
  (List.finRange n).foldr (solve_upper_step e1) e2

/-- Modelled from the spec: `lu_substitute (m, pm, mv)`: the row exchanges,
then the two triangular solves. -/
def lu_substitute {n : Nat} (m : Matrix (Fin n) (Fin n) F) (pm : Fin n → Fin n)
    (mv : Matrix (Fin n) (Fin n) F) : Matrix (Fin n) (Fin n) F :=
  inplace_solve_upper m (inplace_solve_unit_lower m (swap_rows pm mv))

/-! ## `poseidon_mds_matrix` -/

/-- The function `InvertMatrix (mds_matrix, inverse)`: the returned flag and
the content of `inverse` when the call returns. -/
def InvertMatrix {n : Nat} (mds_matrix inverse : Matrix (Fin n) (Fin n) F) :
    Bool × Matrix (Fin n) (Fin n) F :=
  let mds_matrix_temp := mds_matrix
  let lu := lu_factorize mds_matrix_temp
  let res := lu.singular
  if res ≠ 0 then (false, inverse)
  else (true, lu_substitute lu.m lu.pm (1 : Matrix (Fin n) (Fin n) F))

/-- The call `mds_matrix.insert_element (i, j, t)`. -/
def insert_element {n : Nat} (m : Matrix (Fin n) (Fin n) F) (i j : Fin n) (t : F) :
    Matrix (Fin n) (Fin n) F :=
  Function.update m i (Function.update (m i) j t)

variable (F) (Arity : Nat)

/-- The function `get_mds_matrix ()`: the value of its static, or the failure
of its initialiser. -/
def get_mds_matrix : Except Failure (mds_matrix_type F Arity) :=
  (List.finRange (Arity + 1)).foldlM
    (fun (mds_matrix : mds_matrix_type F Arity) i =>
      (List.finRange (Arity + 1)).foldlM
        (fun (mds_matrix : mds_matrix_type F Arity) j =>
          (get_inverse (((i.val + (j.val + state_words Arity) : Nat) : F))).map
            (insert_element mds_matrix i j))
        mds_matrix)
    (0 : mds_matrix_type F Arity)

/-- The function `get_inverse_mds_matrix ()`.  Its only statement between the
construction of `inverse_mds_matrix` and the `return` is
`BOOST_ASSERT_MSG (InvertMatrix (get_mds_matrix (), inverse_mds_matrix), ...)`:
the calls of `get_mds_matrix` and `InvertMatrix` are the argument of the
assertion.  With `assertions_enabled` the argument is evaluated and checked;
without, nothing is evaluated and the matrix is returned as it was
constructed, the zero element standing for the content of a matrix that was
never written. -/
def get_inverse_mds_matrix (assertions_enabled : Bool) :
    Except Failure (mds_matrix_type F Arity) :=
  let inverse_mds_matrix : mds_matrix_type F Arity := 0
  if assertions_enabled then
    match get_mds_matrix F Arity with
    | Except.error e => Except.error e
    | Except.ok mds_matrix =>
      let r := InvertMatrix mds_matrix inverse_mds_matrix
      if r.1 then Except.ok r.2
      else Except.error (Failure.assertion "MDS matrix is not invertible")
  else Except.ok inverse_mds_matrix

variable {F} {Arity}

/-- The assignment `subrange (M_i, 1, n, 1, n) = subrange (M_mul, 1, n, 1, n)`. -/
def assign_subrange (M_i M_mul : mds_matrix_type F Arity) : mds_matrix_type F Arity :=
  fun r c => if r ≠ 0 ∧ c ≠ 0 then M_mul r c else M_i r c

/-- The body of the loop of `get_equivalent_mds_matrix`, iteration `i`. -/
def optimizer_step {part_rounds : Nat} (mds_matrix : mds_matrix_type F Arity)
    (st : optimizer_state F Arity part_rounds) (i : Fin part_rounds) :
    optimizer_state F Arity part_rounds :=
  let M_hat_inverse :=
    (InvertMatrix (st.M_mul.submatrix Fin.succ Fin.succ) st.M_hat_inverse).2
  let w_hat_list := Function.update st.w_hat_list i
    (Matrix.mulVec M_hat_inverse (fun k => st.M_mul k.succ 0))
  let v_list := Function.update st.v_list i (fun k => st.M_mul 0 k.succ)
  let M_i := assign_subrange st.M_i st.M_mul
  { M_mul := mds_matrix * M_i
    M_i := M_i
    M_hat_inverse := M_hat_inverse
    w_hat_list := w_hat_list
    v_list := v_list }

/-- The local variables of `get_equivalent_mds_matrix` when its loop is
entered.  `M_hat_inverse` and the vectors of the two arrays hold no computed
value yet; the zero element stands for their content. -/
def optimizer_init (part_rounds : Nat) (mds_matrix : mds_matrix_type F Arity) :
    optimizer_state F Arity part_rounds :=
  { M_mul := mds_matrix
    M_i := 1
    M_hat_inverse := 0
    w_hat_list := fun _ _ => 0
    v_list := fun _ _ => 0 }

/-- The loop of `get_equivalent_mds_matrix`, run on `mds_matrix`. -/
def optimizer_loop (part_rounds : Nat) (mds_matrix : mds_matrix_type F Arity) :
    optimizer_state F Arity part_rounds :=
  (List.finRange part_rounds).foldl (optimizer_step mds_matrix)
    (optimizer_init part_rounds mds_matrix)

variable (F) (Arity)

/-- The function `get_equivalent_mds_matrix ()`. -/
def get_equivalent_mds_matrix (part_rounds : Nat) :
    Except Failure (equivalent_mds_matrix_type F Arity part_rounds) :=
  match get_mds_matrix F Arity with
  | Except.error e => Except.error e
  | Except.ok mds_matrix =>
    let st := optimizer_loop part_rounds mds_matrix
    Except.ok
      { M_i := st.M_i
        M_0_0 := mds_matrix 0 0
        w_hat_list := st.w_hat_list
        v_list := st.v_list }

/-- The function `get_w_hat (w_hat_number)`. -/
def get_w_hat (part_rounds : Nat) (w_hat_number : Nat) : Except Failure (Fin Arity → F) :=
  match get_equivalent_mds_matrix F Arity part_rounds with
  | Except.error e => Except.error e
  | Except.ok t =>
    if h : w_hat_number < part_rounds then Except.ok (t.w_hat_list ⟨w_hat_number, h⟩)
    else Except.error Failure.out_of_range

/-- The function `get_v (v_number)`. -/
def get_v (part_rounds : Nat) (v_number : Nat) : Except Failure (Fin Arity → F) :=
  match get_equivalent_mds_matrix F Arity part_rounds with
  | Except.error e => Except.error e
  | Except.ok t =>
    if h : v_number < part_rounds then Except.ok (t.v_list ⟨v_number, h⟩)
    else Except.error Failure.out_of_range

/-- The function `get_M_0_0 ()`. -/
def get_M_0_0 (part_rounds : Nat) : Except Failure F :=
  match get_equivalent_mds_matrix F Arity part_rounds with
  | Except.error e => Except.error e
  | Except.ok t => Except.ok t.M_0_0

variable {F} {Arity}

/-- The function `product_with_mds_matrix (A_vector)`. -/
def product_with_mds_matrix (A_vector : state_vector_type F Arity) :
    Except Failure Unit × state_vector_type F Arity :=
  match get_mds_matrix F Arity with
  | Except.error e => (Except.error e, A_vector)
  | Except.ok mds_matrix => (Except.ok (), Matrix.vecMul A_vector mds_matrix)

/-- Modelled from the spec: the assignment `noalias (v) = prod (v, m)` of the
linear-algebra library (not under src/) when the vector `v` stands on both
sides, the use that the spec calls "undefined/incorrect".  The elements of
`v` are written in ascending order, each one computed from the content that
`v` has at that moment. -/
def prod_in_place (v : state_vector_type F Arity) (m : mds_matrix_type F Arity) :
    state_vector_type F Arity :=
  (List.finRange (Arity + 1)).foldl (fun v j => Function.update v j (Matrix.vecMul v m j)) v

/-- The function `product_with_inverse_mds_matrix_noalias (A_vector_in,
A_vector_out)`; `same_object` tells whether the two references name one
vector, and `assertions_enabled` whether the build evaluates the argument of
`BOOST_ASSERT_MSG`, here and in `get_inverse_mds_matrix`.  The result is the
status and the content of `A_vector_out`. -/
def product_with_inverse_mds_matrix_noalias (assertions_enabled : Bool)
    (A_vector_in A_vector_out : state_vector_type F Arity) (same_object : Bool) :
    Except Failure Unit × state_vector_type F Arity :=
  if assertions_enabled && same_object then
    (Except.error (Failure.assertion "wrong using: product_with_inverse_mds_matrix_noalias"),
      A_vector_out)
  else
    match get_inverse_mds_matrix F Arity assertions_enabled with
    | Except.error e => (Except.error e, A_vector_out)
    | Except.ok inverse_mds_matrix =>
      if same_object then (Except.ok (), prod_in_place A_vector_out inverse_mds_matrix)
      else (Except.ok (), Matrix.vecMul A_vector_in inverse_mds_matrix)

/-- The function `product_with_equivalent_mds_matrix_init (A_vector,
round_number)`. -/
def product_with_equivalent_mds_matrix_init (half_full_rounds part_rounds : Nat)
    (A_vector : state_vector_type F Arity) (round_number : Nat) :
    Except Failure Unit × state_vector_type F Arity :=
  if ¬ (round_number = half_full_rounds) then
    (Except.error (Failure.assertion "wrong using: product_with_equivalent_mds_matrix_init"),
      A_vector)
  else
    match get_equivalent_mds_matrix F Arity part_rounds with
    | Except.error e => (Except.error e, A_vector)
    | Except.ok t => (Except.ok (), Matrix.vecMul A_vector t.M_i)

/-- The index `matrix_number_base` of `product_with_equivalent_mds_matrix`. -/
def matrix_number_base (half_full_rounds part_rounds round_number : Nat) : Nat :=
  size_t_sub (size_t_sub part_rounds (size_t_sub round_number half_full_rounds)) 1

/-- The loop `for (i = 1; i < state_words; i++)` of
`product_with_equivalent_mds_matrix`. -/
def add_first_word_multiples (A_0 : F) (v : Fin Arity → F)
    (A_vector : state_vector_type F Arity) : state_vector_type F Arity :=
  (List.finRange Arity).foldl
    (fun A_vector k => Function.update A_vector k.succ (A_0 * v k + A_vector k.succ))
    A_vector

/-- The function `product_with_equivalent_mds_matrix (A_vector,
round_number)`. -/
def product_with_equivalent_mds_matrix (half_full_rounds part_rounds : Nat)
    (A_vector : state_vector_type F Arity) (round_number : Nat) :
    Except Failure Unit × state_vector_type F Arity :=
  if ¬ (round_number ≥ half_full_rounds ∧
      round_number < size_t_add half_full_rounds part_rounds) then
    (Except.error (Failure.assertion "wrong using: product_with_equivalent_mds_matrix"),
      A_vector)
  else
    let matrix_number_base := matrix_number_base half_full_rounds part_rounds round_number
    match get_v F Arity part_rounds matrix_number_base with
    | Except.error e => (Except.error e, A_vector)
    | Except.ok v =>
      let A_0 := A_vector 0
      match get_M_0_0 F Arity part_rounds with
      | Except.error e => (Except.error e, A_vector)
      | Except.ok M_0_0 =>
        match get_w_hat F Arity part_rounds matrix_number_base with
        | Except.error e => (Except.error e, A_vector)
        | Except.ok w_hat =>
          let temp_vector : state_vector_type F Arity := Fin.cons M_0_0 w_hat
          let A_vector := Function.update A_vector 0 (Matrix.dotProduct A_vector temp_vector)
          (Except.ok (), add_first_word_multiples A_0 v A_vector)

/-! ## Matrices used to state the invariants of the factorisation -/

/-- The entries of column `k` of `m` below the diagonal, as a matrix. -/
def colBelow {n : Nat} (m : Matrix (Fin n) (Fin n) F) (k : Fin n) : Matrix (Fin n) (Fin n) F :=
  fun r c => if c = k ∧ k < r then m r k else 0

/-- The unit lower triangular matrix whose columns before `k` are those stored
in `m` below the diagonal. -/
def unitLower {n : Nat} (m : Matrix (Fin n) (Fin n) F) (k : Nat) : Matrix (Fin n) (Fin n) F :=
  fun r c => if r = c then 1 else if c < r ∧ c.val < k then m r c else 0

/-- The rows of `m` before `k` from the diagonal on, and the block of `m`
from row and column `k` on. -/
def upperAndRest {n : Nat} (m : Matrix (Fin n) (Fin n) F) (k : Nat) : Matrix (Fin n) (Fin n) F :=
  fun r c => if (r.val < k ∧ r ≤ c) ∨ (k ≤ r.val ∧ k ≤ c.val) then m r c else 0

/-- The identity matrix with column `k` replaced by column `k` of the upper
triangle of `m`. -/
def colUpper {n : Nat} (m : Matrix (Fin n) (Fin n) F) (k : Fin n) : Matrix (Fin n) (Fin n) F :=
  fun r c => if c = k then (if r ≤ k then m r k else 0) else if r = c then 1 else 0

/-- The identity matrix with the columns from `k` on replaced by those of the
upper triangle of `m`. -/
def upperFrom {n : Nat} (m : Matrix (Fin n) (Fin n) F) (k : Nat) : Matrix (Fin n) (Fin n) F :=
  fun r c => if k ≤ c.val then (if r ≤ c then m r c else 0) else if r = c then 1 else 0

/-- The composition of the row exchanges recorded in `pm` for the rows before
`k`. -/
def perm_upto {n : Nat} (pm : Fin n → Fin n) : Nat → Equiv.Perm (Fin n)
  | 0 => 1
  | k + 1 =>
    if h : k < n then perm_upto pm k * Equiv.swap ⟨k, h⟩ (pm ⟨k, h⟩) else perm_upto pm k

/-- The invariant of the loop of `lu_factorize` on input `A` before step `k`:
the stored factors multiply to `A` with its rows exchanged, the rows from `k`
on have not been exchanged, and `singular` tells whether a pivot was zero. -/
def lu_invariant {n : Nat} (A : Matrix (Fin n) (Fin n) F) (k : Nat) (st : lu_result F n) : Prop :=
  unitLower st.m k * upperAndRest st.m k = A.submatrix (perm_upto st.pm k) id ∧
  (∀ i : Fin n, k ≤ i.val → st.pm i = i) ∧
  (st.singular = 0 ↔ ∀ j : Fin n, j.val < k → st.m j j ≠ 0)

/-! ## Closed forms used in the statements -/

/-- The condition on the parameters under which every element that
`get_mds_matrix` inverts is non-zero. -/
def valid_parameters (F : Type) [Field F] (Arity : Nat) : Prop :=
  ∀ i j : Fin (Arity + 1), ((i.val + (j.val + state_words Arity) : Nat) : F) ≠ 0

/-- The condition `valid_parameters` can be checked by evaluation. -/
instance valid_parameters_decidable (F : Type) [Field F] [DecidableEq F] (Arity : Nat) :
    Decidable (valid_parameters F Arity) := by
  unfold valid_parameters
  exact inferInstance

/-- The matrix with entry `(i, j)` the field inverse of `i + j + state_words`. -/
def mds_entries (F : Type) [Field F] (Arity : Nat) : mds_matrix_type F Arity :=
  fun i j => (((i.val + (j.val + state_words Arity) : Nat) : F))⁻¹

/-- The matrix with corner `a`, rest of row 0 `v`, rest of column 0 `w` and
`X` in the rows and columns from 1 on. -/
def block {n : Nat} (a : F) (v w : Fin n → F) (X : Matrix (Fin n) (Fin n) F) :
    Matrix (Fin (n + 1)) (Fin (n + 1)) F :=
  fun r c =>
    if hr : r = 0 then (if hc : c = 0 then a else v (c.pred hc))
    else (if hc : c = 0 then w (r.pred hr) else X (r.pred hr) (c.pred hc))

/-- The sparse matrix of one call of `product_with_equivalent_mds_matrix`:
corner `M_0_0`, rest of row 0 `v`, rest of column 0 `w_hat`, and the identity
in the rows and columns from 1 on. -/
def sparse_factor {n : Nat} (M_0_0 : F) (w_hat v : Fin n → F) :
    Matrix (Fin (n + 1)) (Fin (n + 1)) F :=
  block M_0_0 v w_hat 1

/-- The local variables of `get_equivalent_mds_matrix` when iteration `k` of
its loop starts (when the loop ends, for `k = part_rounds`). -/
def optimizer_state_at {Arity : Nat} (part_rounds : Nat) (mds_matrix : mds_matrix_type F Arity) :
    Nat → optimizer_state F Arity part_rounds
  | 0 => optimizer_init part_rounds mds_matrix
  | k + 1 =>
    if h : k < part_rounds then
      optimizer_step mds_matrix (optimizer_state_at part_rounds mds_matrix k) ⟨k, h⟩
    else optimizer_state_at part_rounds mds_matrix k

/-! ## The round loop

The callers of the linear layer are not under src/; the two sequences of
calls compared by the spec are written out here. -/

/-- One more call `f` on the state, made only if the calls so far succeeded. -/
def and_then {V : Type} (r : Except Failure Unit × V) (f : V → Except Failure Unit × V) :
    Except Failure Unit × V :=
  match r.1 with
  | Except.ok _ => f r.2
  | Except.error _ => r

/-- The optimised path over the span of `part_rounds` rounds that starts at
`half_full_rounds`: `product_with_equivalent_mds_matrix_init` at round
`half_full_rounds`, then `product_with_equivalent_mds_matrix` at the first
`count` rounds `half_full_rounds`, `half_full_rounds + 1`, ... in that
order. -/
def optimized_rounds {Arity : Nat} (half_full_rounds part_rounds count : Nat)
    (s : state_vector_type F Arity) : Except Failure Unit × state_vector_type F Arity :=
  (List.range count).foldl
    (fun acc k => and_then acc (fun A_vector =>
      product_with_equivalent_mds_matrix half_full_rounds part_rounds A_vector
        (half_full_rounds + k)))
    (product_with_equivalent_mds_matrix_init half_full_rounds part_rounds s half_full_rounds)

/-- The dense path: `product_with_mds_matrix` called `count` times. -/
def dense_rounds {Arity : Nat} (count : Nat) (s : state_vector_type F Arity) :
    Except Failure Unit × state_vector_type F Arity :=
  (List.range count).foldl (fun acc _ => and_then acc product_with_mds_matrix) (Except.ok (), s)

/-- The modulus 101 of the concrete scenario is prime. -/
instance prime_101 : Fact (Nat.Prime 101) := ⟨by norm_num⟩

/-- The tuple that `get_equivalent_mds_matrix` returns when its loop was run
on `mds_matrix`. -/
def equivalent_mds_matrix_from {Arity : Nat} (part_rounds : Nat)
    (mds_matrix : mds_matrix_type F Arity) : equivalent_mds_matrix_type F Arity part_rounds :=
  { M_i := (optimizer_state_at part_rounds mds_matrix part_rounds).M_i
    M_0_0 := mds_matrix 0 0
    w_hat_list := (optimizer_state_at part_rounds mds_matrix part_rounds).w_hat_list
    v_list := (optimizer_state_at part_rounds mds_matrix part_rounds).v_list }

/-! ## The sizes of the containers

The matrices and vectors of the library carry their sizes at run time, and the
vectors of a `subvectors_collection` are empty until they are assigned.  The
loop of `get_equivalent_mds_matrix` is written out once more for the sizes
alone. -/

/-- The sizes (rows, columns) of the matrices and the lengths of the vectors
of the two arrays in `get_equivalent_mds_matrix`. -/
structure optimizer_sizes (part_rounds : Nat) where
  M_mul : Nat × Nat
  M_i : Nat × Nat
  M_hat_inverse : Nat × Nat
  w_hat_list : Fin part_rounds → Nat
  v_list : Fin part_rounds → Nat

/-- The sizes when the loop of `get_equivalent_mds_matrix` is entered: `M_mul`
is a copy of the matrix of `get_mds_matrix`, `M_i` an identity matrix of
`M_mul.size1 ()` rows, and the vectors of the two arrays are empty. -/
def optimizer_sizes_init (Arity part_rounds : Nat) : optimizer_sizes part_rounds :=
  let M_mul : Nat × Nat := (state_words Arity, state_words Arity)
  { M_mul := M_mul
    M_i := (M_mul.1, M_mul.1)
    M_hat_inverse := (state_words Arity - 1, state_words Arity - 1)
    w_hat_list := fun _ => 0
    v_list := fun _ => 0 }

/-- The sizes after iteration `i` of the loop of `get_equivalent_mds_matrix`:
`w_hat_list[i]` gets the length of a product with `M_hat_inverse`, `v_list[i]`
the length of row 0 of `M_mul` without its first entry, and `M_mul` the size
of the product of the MDS matrix with `M_i`. -/
def optimizer_sizes_step (Arity : Nat) {part_rounds : Nat} (sz : optimizer_sizes part_rounds)
    (i : Fin part_rounds) : optimizer_sizes part_rounds :=
  { M_mul := (state_words Arity, sz.M_i.2)
    M_i := sz.M_i
    M_hat_inverse := sz.M_hat_inverse
    w_hat_list := Function.update sz.w_hat_list i sz.M_hat_inverse.1
    v_list := Function.update sz.v_list i (sz.M_mul.2 - 1) }

/-- The sizes when the loop of `get_equivalent_mds_matrix` ends. -/
def optimizer_sizes_loop (Arity part_rounds : Nat) : optimizer_sizes part_rounds :=
  (List.finRange part_rounds).foldl (optimizer_sizes_step Arity)
    (optimizer_sizes_init Arity part_rounds)

/-! ## The round loop with a function on word 0 -/

/-- The optimised path with the function `f k` applied to word 0 of the state
before the call of round `half_full_rounds + k`. -/
def optimized_rounds_with {Arity : Nat} (f : Nat → F → F)
    (half_full_rounds part_rounds count : Nat) (s : state_vector_type F Arity) :
    Except Failure Unit × state_vector_type F Arity :=
  (List.range count).foldl
    (fun acc k => and_then acc (fun A_vector =>
      product_with_equivalent_mds_matrix half_full_rounds part_rounds
        (Function.update A_vector 0 (f k (A_vector 0))) (half_full_rounds + k)))
    (product_with_equivalent_mds_matrix_init half_full_rounds part_rounds s half_full_rounds)

/-- The dense path with the function `f k` applied to word 0 of the state
before the `k`-th call of `product_with_mds_matrix`. -/
def dense_rounds_with {Arity : Nat} (f : Nat → F → F) (count : Nat)
    (s : state_vector_type F Arity) : Except Failure Unit × state_vector_type F Arity :=
  (List.range count).foldl
    (fun acc k => and_then acc (fun A_vector =>
      product_with_mds_matrix (Function.update A_vector 0 (f k (A_vector 0)))))
    (Except.ok (), s)

end Field

/-! ## Proofs -/

section Proofs

variable {F : Type} [Field F]

/-! ### Loops over `List.finRange` -/

theorem foldl_finRange_induction {σ : Type} : ∀ {n : Nat} (body : σ → Fin n → σ) (init : σ)
    (P : Nat → σ → Prop), P 0 init →
    (∀ (i : Fin n) (s : σ), P i.val s → P (i.val + 1) (body s i)) →
    P n ((List.finRange n).foldl body init)
  | 0, body, init, P, h0, _ => by simpa using h0
  | n + 1, body, init, P, h0, hs => by
    rw [List.finRange_succ_eq_map, List.foldl_cons, List.foldl_map]
    refine foldl_finRange_induction (fun s i => body s i.succ) (body init 0)
      (fun k s => P (k + 1) s) ?_ ?_
    · simpa using hs 0 init h0
    · intro i s h
      simpa using hs i.succ s (by simpa using h)

theorem foldr_finRange_induction {σ : Type} : ∀ {n : Nat} (body : Fin n → σ → σ) (init : σ)
    (P : Nat → σ → Prop), P n init →
    (∀ (i : Fin n) (s : σ), P (i.val + 1) s → P i.val (body i s)) →
    P 0 ((List.finRange n).foldr body init)
  | 0, body, init, P, h0, _ => by simpa using h0
  | n + 1, body, init, P, h0, hs => by
    rw [List.finRange_succ_eq_map, List.foldr_cons, List.foldr_map]
    have h1 := foldr_finRange_induction (fun i s => body i.succ s) init
      (fun k s => P (k + 1) s) h0 (by
        intro i s h
        simpa using hs i.succ s (by simpa using h))
    simpa using hs 0 _ (by simpa using h1)

/-! ### The column matrices of an elimination step -/

theorem colBelow_mul_apply {n : Nat} (m X : Matrix (Fin n) (Fin n) F) (k r c : Fin n) :
    (colBelow m k * X) r c = if k < r then m r k * X k c else 0 := by
  rw [Matrix.mul_apply, Finset.sum_eq_single k]
  · simp [colBelow]
  · intro t _ ht
    simp [colBelow, ht]
  · intro h
    exact absurd (Finset.mem_univ k) h

theorem unitLower_mul_colBelow {n : Nat} (m m' : Matrix (Fin n) (Fin n) F) (k : Fin n) :
    unitLower m' k.val * colBelow m k = colBelow m k := by
  ext r c
  rw [Matrix.mul_apply, Finset.sum_eq_single r]
  · simp [unitLower]
  · intro t _ ht
    by_cases h : c = k ∧ k < t
    · have h1 : ¬ (t.val < k.val) := by
        have := h.2
        exact not_lt.mpr (le_of_lt this)
      simp [unitLower, Ne.symm ht, h1]
    · simp [colBelow, h]
  · intro h
    exact absurd (Finset.mem_univ r) h

theorem colBelow_mul_self {n : Nat} (m : Matrix (Fin n) (Fin n) F) (k : Fin n) :
    colBelow m k * colBelow m k = 0 := by
  ext r c
  rw [colBelow_mul_apply]
  simp [colBelow]

theorem unitLower_succ {n : Nat} (m : Matrix (Fin n) (Fin n) F) (k : Fin n) :
    unitLower m (k.val + 1) = unitLower m k.val * (1 + colBelow m k) := by
  rw [mul_add, mul_one, unitLower_mul_colBelow]
  ext r c
  simp only [unitLower, colBelow, Matrix.add_apply]
  by_cases h1 : r = c
  · subst h1
    have h5 : ¬ (r = k ∧ k < r) := fun h => absurd h.2 (by rw [h.1]; exact lt_irrefl _)
    simp [h5]
  · by_cases h2 : c = k
    · subst h2
      by_cases h3 : c < r
      · simp [h1, h3]
      · simp [h1, h3]
    · have h4 : c.val < k.val + 1 ↔ c.val < k.val := by
        have : c.val ≠ k.val := fun h => h2 (Fin.ext h)
        omega
      simp [h1, h2, h4]

theorem one_add_colBelow_mul {n : Nat} (m : Matrix (Fin n) (Fin n) F) (k : Fin n) :
    (1 + colBelow m k) * (1 - colBelow m k) = 1 := by
  rw [add_mul, mul_sub, mul_sub, colBelow_mul_self]
  simp

theorem unitLower_congr {n : Nat} (m m' : Matrix (Fin n) (Fin n) F) (k : Nat)
    (h : ∀ r c : Fin n, c.val < k → m' r c = m r c) : unitLower m' k = unitLower m k := by
  ext r c
  simp only [unitLower]
  by_cases h1 : r = c
  · simp [h1]
  · by_cases h2 : c < r ∧ c.val < k
    · simp [h1, h2, h r c h2.2]
    · simp [h1, h2]

theorem upperAndRest_eliminate {n : Nat} (m1 m2 : Matrix (Fin n) (Fin n) F) (k : Fin n)
    (h_same : ∀ r c : Fin n, ¬ (k < r ∧ c = k) → m2 r c = m1 r c)
    (h_mult : ∀ r : Fin n, k < r → m2 r k * m1 k k = m1 r k) :
    upperAndRest (lu_eliminate m2 k) (k.val + 1)
      = (1 - colBelow (lu_eliminate m2 k) k) * upperAndRest m1 k.val := by
  ext r c
  rw [Matrix.sub_mul, Matrix.one_mul, Matrix.sub_apply, colBelow_mul_apply]
  have hkk : ¬ (k < k) := lt_irrefl k
  rcases lt_trichotomy r k with hr | hr | hr
  · have h0 : ¬ k < r := not_lt.mpr hr.le
    have hv : r.val < k.val := hr
    have h1 : r.val < k.val + 1 := by omega
    have h2 : ¬ (k.val + 1 ≤ r.val) := by omega
    have h3 : ¬ (k.val ≤ r.val) := by omega
    have h4 : m2 r c = m1 r c := h_same r c (fun h => h0 h.1)
    simp [upperAndRest, lu_eliminate, h0, h1, h2, h3, hv, h4]
  · subst hr
    have h1 : r.val < r.val + 1 := by omega
    have h2 : ¬ (r.val + 1 ≤ r.val) := by omega
    have h4 : m2 r c = m1 r c := h_same r c (fun h => hkk h.1)
    simp [upperAndRest, lu_eliminate, hkk, h1, h2, h4]
  · have hv : k.val < r.val := hr
    have h1 : ¬ (r.val < k.val + 1) := by omega
    have h2 : (k.val + 1 ≤ r.val) := by omega
    have h3 : (k.val ≤ r.val) := by omega
    have h6 : ¬ (r.val < k.val) := by omega
    have h7 : lu_eliminate m2 k r k = m2 r k := by simp [lu_eliminate]
    rw [h7]
    rcases lt_trichotomy c k with hc | hc | hc
    · have hcv : c.val < k.val := hc
      have h8 : ¬ (k.val + 1 ≤ c.val) := by omega
      have h9 : ¬ (k.val ≤ c.val) := by omega
      simp [upperAndRest, h1, h2, h3, h6, h8, h9, hr]
    · subst hc
      have h8 : ¬ (c.val + 1 ≤ c.val) := by omega
      have h10 := h_mult r hr
      simp [upperAndRest, h1, h2, h3, h6, h8, hr, h10]
    · have hcv : k.val < c.val := hc
      have h8 : (k.val + 1 ≤ c.val) := by omega
      have h9 : (k.val ≤ c.val) := by omega
      have h11 : m2 r c = m1 r c := h_same r c (fun h => absurd h.2 (ne_of_gt hc))
      have h12 : m2 k c = m1 k c := h_same k c (fun h => hkk h.1)
      simp [upperAndRest, lu_eliminate, h1, h2, h3, h6, h8, h9, hr, hc, h11, h12]

theorem lu_eliminate_invariant {n : Nat} (m1 m2 : Matrix (Fin n) (Fin n) F) (k : Fin n)
    (h_same : ∀ r c : Fin n, ¬ (k < r ∧ c = k) → m2 r c = m1 r c)
    (h_mult : ∀ r : Fin n, k < r → m2 r k * m1 k k = m1 r k) :
    unitLower (lu_eliminate m2 k) (k.val + 1) * upperAndRest (lu_eliminate m2 k) (k.val + 1)
      = unitLower m1 k.val * upperAndRest m1 k.val := by
  have hL : unitLower (lu_eliminate m2 k) k.val = unitLower m1 k.val := by
    apply unitLower_congr
    intro r c hc
    have h1 : ¬ (k < c) := not_lt.mpr (le_of_lt hc)
    have h2 : c ≠ k := ne_of_lt hc
    simp only [lu_eliminate, h1, and_false, if_false]
    exact h_same r c (fun h => h2 h.2)
  rw [unitLower_succ, upperAndRest_eliminate m1 m2 k h_same h_mult, hL, Matrix.mul_assoc,
    ← Matrix.mul_assoc (1 + colBelow (lu_eliminate m2 k) k), one_add_colBelow_mul, Matrix.one_mul]

/-! ### The pivot search and the row exchanges -/

theorem pivot_row_ge [DecidableEq F] {n : Nat} (m : Matrix (Fin n) (Fin n) F) (i : Fin n) :
    i ≤ pivot_row m i := by
  unfold pivot_row
  cases h : (List.finRange n).find? (fun r => decide (i ≤ r ∧ m r i ≠ 0)) with
  | none => simp
  | some r =>
    have := List.find?_some h
    simp only [decide_eq_true_eq] at this
    simpa using this.1

theorem pivot_row_zero [DecidableEq F] {n : Nat} (m : Matrix (Fin n) (Fin n) F) (i : Fin n)
    (h0 : m (pivot_row m i) i = 0) (r : Fin n) (hr : i ≤ r) : m r i = 0 := by
  unfold pivot_row at h0
  cases h : (List.finRange n).find? (fun r => decide (i ≤ r ∧ m r i ≠ 0)) with
  | none =>
    rw [List.find?_eq_none] at h
    have := h r (List.mem_finRange r)
    simp only [decide_eq_true_eq, not_and, not_not] at this
    exact this hr
  | some t =>
    have := List.find?_some h
    simp only [decide_eq_true_eq] at this
    rw [h] at h0
    exact absurd h0 this.2

theorem perm_upto_succ {n : Nat} (pm : Fin n → Fin n) (i : Fin n) :
    perm_upto pm (i.val + 1) = perm_upto pm i.val * Equiv.swap i (pm i) := by
  simp [perm_upto, i.isLt]

theorem perm_upto_congr {n : Nat} (pm pm' : Fin n → Fin n) :
    ∀ k : Nat, (∀ i : Fin n, i.val < k → pm i = pm' i) → perm_upto pm k = perm_upto pm' k
  | 0, _ => rfl
  | k + 1, h => by
    have ih := perm_upto_congr pm pm' k (fun i hi => h i (Nat.lt_succ_of_lt hi))
    by_cases hk : k < n
    · have := h ⟨k, hk⟩ (Nat.lt_succ_self k)
      simp [perm_upto, hk, ih, this]
    · simp [perm_upto, hk, ih]

theorem swap_fix_lt {n : Nat} (i p t : Fin n) (hp : i ≤ p) (ht : t.val < i.val) :
    Equiv.swap i p t = t := by
  apply Equiv.swap_apply_of_ne_of_ne
  · exact fun h => by rw [h] at ht; exact lt_irrefl _ ht
  · intro h
    rw [h] at ht
    exact absurd (Fin.le_def.mp hp) (by omega)

theorem swap_ge {n : Nat} (i p t : Fin n) (hp : i ≤ p) (ht : i.val ≤ t.val) :
    i.val ≤ (Equiv.swap i p t).val := by
  rw [Equiv.swap_apply_def]
  split_ifs with h1 h2
  · exact hp
  · exact le_refl _
  · exact ht

theorem unitLower_swap {n : Nat} (m : Matrix (Fin n) (Fin n) F) (i p : Fin n) (hp : i ≤ p) :
    unitLower (fun r c => m (Equiv.swap i p r) c) i.val
      = (unitLower m i.val).submatrix (Equiv.swap i p) (Equiv.swap i p) := by
  ext r c
  simp only [unitLower, Matrix.submatrix_apply, EmbeddingLike.apply_eq_iff_eq]
  by_cases h1 : r = c
  · simp [h1]
  · simp only [h1, if_false]
    by_cases hc : c.val < i.val
    · have hsc := swap_fix_lt i p c hp hc
      rw [hsc]
      by_cases hr : r.val < i.val
      · rw [swap_fix_lt i p r hp hr]
      · have h2 := swap_ge i p r hp (by omega)
        have h3 : c < r := Fin.lt_def.mpr (by omega)
        have h4 : c < Equiv.swap i p r := Fin.lt_def.mpr (by omega)
        simp [h3, h4, hc]
    · have h2 := swap_ge i p c hp (by omega)
      have h3 : ¬ ((Equiv.swap i p c).val < i.val) := by omega
      simp [hc, h3]

theorem upperAndRest_swap {n : Nat} (m : Matrix (Fin n) (Fin n) F) (i p : Fin n) (hp : i ≤ p) :
    upperAndRest (fun r c => m (Equiv.swap i p r) c) i.val
      = (upperAndRest m i.val).submatrix (Equiv.swap i p) id := by
  ext r c
  simp only [upperAndRest, Matrix.submatrix_apply, id]
  by_cases hr : r.val < i.val
  · rw [swap_fix_lt i p r hp hr]
  · have h2 := swap_ge i p r hp (by omega)
    have h3 : ¬ ((Equiv.swap i p r).val < i.val) := by omega
    have h4 : i.val ≤ r.val := by omega
    simp [hr, h3, h2, h4]

theorem swap_invariant {n : Nat} (m : Matrix (Fin n) (Fin n) F) (i p : Fin n) (hp : i ≤ p) :
    unitLower (fun r c => m (Equiv.swap i p r) c) i.val
        * upperAndRest (fun r c => m (Equiv.swap i p r) c) i.val
      = (unitLower m i.val * upperAndRest m i.val).submatrix (Equiv.swap i p) id := by
  rw [unitLower_swap m i p hp, upperAndRest_swap m i p hp, Matrix.submatrix_mul_equiv]

/-! ### The invariant of `lu_factorize` -/

theorem lu_invariant_init {n : Nat} (A : Matrix (Fin n) (Fin n) F) :
    lu_invariant A 0 { m := A, pm := id, singular := 0 } := by
  refine ⟨?_, fun i _ => rfl, by simp⟩
  have h1 : unitLower A 0 = 1 := by
    ext r c
    simp [unitLower, Matrix.one_apply]
  have h2 : upperAndRest A 0 = A := by
    ext r c
    simp [upperAndRest]
  rw [h1, h2, Matrix.one_mul]
  rfl

theorem lu_eliminate_row {n : Nat} (m : Matrix (Fin n) (Fin n) F) (i r c : Fin n)
    (h : ¬ i < r) : lu_eliminate m i r c = m r c := by
  simp [lu_eliminate, h]

theorem lu_invariant_step [DecidableEq F] {n : Nat} (A : Matrix (Fin n) (Fin n) F) (i : Fin n)
    (st : lu_result F n) (h : lu_invariant A i.val st) :
    lu_invariant A (i.val + 1) (lu_factorize_step st i) := by
  obtain ⟨hLU, hpm, hsing⟩ := h
  have hp := pivot_row_ge st.m i
  have hii : ¬ i < i := lt_irrefl i
  by_cases hz : st.m (pivot_row st.m i) i ≠ 0
  · -- a pivot was found
    have hm1 : (if pivot_row st.m i ≠ i then
        fun r c => st.m (Equiv.swap i (pivot_row st.m i) r) c else st.m)
        = fun r c => st.m (Equiv.swap i (pivot_row st.m i) r) c := by
      by_cases hpi : pivot_row st.m i ≠ i
      · simp [hpi]
      · have hpi' : pivot_row st.m i = i := not_not.mp hpi
        simp [hpi']
    have hpm1 : ∀ j : Fin n, (if pivot_row st.m i ≠ i then
        Function.update st.pm i (pivot_row st.m i) else st.pm) j
        = if j = i then pivot_row st.m i else st.pm j := by
      intro j
      by_cases hpi : pivot_row st.m i ≠ i
      · simp [hpi, Function.update_apply]
      · have hpi' : pivot_row st.m i = i := not_not.mp hpi
        by_cases hj : j = i
        · simp [hpi', hj, hpm i (le_refl _)]
        · simp [hpi', hj]
    simp only [lu_factorize_step]
    rw [if_pos hz]
    simp only [hm1]
    unfold lu_invariant
    dsimp only
    set p := pivot_row st.m i with hpdef
    set m1 : Matrix (Fin n) (Fin n) F := fun r c => st.m (Equiv.swap i p r) c with hm1def
    have hm1ii : m1 i i = st.m p i := by simp [hm1def]
    have hne : m1 i i ≠ 0 := by rw [hm1ii]; exact hz
    refine ⟨?_, ?_, ?_⟩
    · rw [lu_eliminate_invariant m1 _ i]
      · rw [swap_invariant st.m i p hp, hLU, perm_upto_succ]
        have hc : perm_upto (if p ≠ i then Function.update st.pm i p else st.pm) i.val
            = perm_upto st.pm i.val := by
          apply perm_upto_congr
          intro j hj
          rw [hpm1 j]
          have : j ≠ i := fun h => by rw [h] at hj; exact lt_irrefl _ hj
          simp [this]
        rw [hc, hpm1 i]
        ext r c
        simp
      · intro r c hrc
        simp only [hrc, if_false]
      · intro r hr
        show (if i < r ∧ i = i then m1 r i * (1 / m1 i i) else m1 r i) * m1 i i = m1 r i
        rw [if_pos ⟨hr, rfl⟩, mul_assoc, one_div, inv_mul_cancel₀ hne, mul_one]
    · intro j hj
      rw [hpm1 j]
      have : j ≠ i := fun h => by rw [h] at hj; omega
      simp only [this, if_false]
      exact hpm j (by omega)
    · rw [hsing]
      have hrow : ∀ j : Fin n, j.val < i.val →
          lu_eliminate (fun r c => if i < r ∧ c = i then m1 r c * (1 / m1 i i) else m1 r c) i j j
            = st.m j j := by
        intro j hj
        have h1 : ¬ i < j := not_lt.mpr (le_of_lt (Fin.lt_def.mpr hj))
        rw [lu_eliminate_row _ i j j h1]
        simp only [h1, false_and, if_false, hm1def]
        rw [swap_fix_lt i p j hp hj]
      have hdiag :
          lu_eliminate (fun r c => if i < r ∧ c = i then m1 r c * (1 / m1 i i) else m1 r c) i i i
            = st.m p i := by
        rw [lu_eliminate_row _ i i i hii]
        simp only [hii, false_and, if_false, hm1ii]
      constructor
      · intro h j hj
        by_cases hji : j.val < i.val
        · rw [hrow j hji]
          exact h j hji
        · have : j = i := Fin.ext (by omega)
          rw [this, hdiag]
          exact hz
      · intro h j hj
        rw [← hrow j hj]
        exact h j (by omega)
  · -- no pivot in this column
    have hz' : st.m (pivot_row st.m i) i = 0 := not_not.mp hz
    have hcol := pivot_row_zero st.m i hz'
    simp only [lu_factorize_step]
    rw [if_neg hz]
    unfold lu_invariant
    dsimp only
    refine ⟨?_, fun j hj => hpm j (by omega), ?_⟩
    · rw [lu_eliminate_invariant st.m st.m i (fun _ _ _ => rfl)]
      · rw [hLU, perm_upto_succ, hpm i (le_refl _)]
        simp
      · intro r hr
        rw [hcol r (le_of_lt hr)]
        simp
    · constructor
      · intro h
        exfalso
        by_cases h0 : st.singular = 0
        · simp [h0] at h
        · simp [h0] at h
      · intro h
        exfalso
        have := h i (Nat.lt_succ_self _)
        rw [lu_eliminate_row _ i i i hii] at this
        exact this (hcol i (le_refl _))

theorem lu_factorize_invariant [DecidableEq F] {n : Nat} (A : Matrix (Fin n) (Fin n) F) :
    lu_invariant A n (lu_factorize A) :=
  foldl_finRange_induction lu_factorize_step _ (lu_invariant A) (lu_invariant_init A)
    (fun i st h => lu_invariant_step A i st h)

/-! ### The steps of `lu_substitute` -/

omit [Field F] in
theorem swap_rows_eq {n : Nat} (pm : Fin n → Fin n) (X : Matrix (Fin n) (Fin n) F) :
    swap_rows pm X = X.submatrix (perm_upto pm n) id := by
  unfold swap_rows
  refine foldl_finRange_induction _ X (fun k Y => Y = X.submatrix (perm_upto pm k) id) ?_ ?_
  · ext r c
    simp [perm_upto]
  · intro i Y hY
    rw [perm_upto_succ, hY]
    by_cases h : i ≠ pm i
    · simp only [h, if_true, ne_eq, not_false_eq_true]
      ext r c
      simp
    · have h' : i = pm i := not_not.mp h
      simp only [h, if_false]
      rw [← h']
      simp

theorem inplace_solve_unit_lower_spec {n : Nat} (e1 B : Matrix (Fin n) (Fin n) F) :
    unitLower e1 n * inplace_solve_unit_lower e1 B = B := by
  unfold inplace_solve_unit_lower
  refine foldl_finRange_induction _ B (fun k Y => unitLower e1 k * Y = B) ?_ ?_
  · have h1 : unitLower e1 0 = 1 := by
      ext r c
      simp [unitLower, Matrix.one_apply]
    simp [h1]
  · intro i Y hY
    have hstep : solve_unit_lower_step e1 Y i = (1 - colBelow e1 i) * Y := by
      ext r l
      rw [Matrix.sub_mul, Matrix.one_mul, Matrix.sub_apply, colBelow_mul_apply]
      by_cases h : i < r
      · simp [solve_unit_lower_step, h]
      · simp [solve_unit_lower_step, h]
    rw [hstep, unitLower_succ, Matrix.mul_assoc, ← Matrix.mul_assoc (1 + colBelow e1 i),
      one_add_colBelow_mul, Matrix.one_mul, hY]

theorem colUpper_mul_apply {n : Nat} (m X : Matrix (Fin n) (Fin n) F) (k r l : Fin n) :
    (colUpper m k * X) r l
      = (if r ≤ k then m r k else 0) * X k l + (if r = k then 0 else X r l) := by
  have hsplit : colUpper m k
      = (fun r c => if c = k then (if r ≤ k then m r k else 0) else 0)
        + (fun r c => if c ≠ k ∧ r = c then (1 : F) else 0) := by
    ext r c
    simp only [colUpper, Matrix.add_apply]
    by_cases h : c = k
    · simp [h]
    · simp [h]
  rw [hsplit, Matrix.add_mul, Matrix.add_apply]
  congr 1
  · rw [Matrix.mul_apply, Finset.sum_eq_single k]
    · simp
    · intro t _ ht
      simp [ht]
    · intro h
      exact absurd (Finset.mem_univ k) h
  · rw [Matrix.mul_apply, Finset.sum_eq_single r]
    · by_cases h : r = k
      · simp [h]
      · simp [h]
    · intro t _ ht
      simp [Ne.symm ht]
    · intro h
      exact absurd (Finset.mem_univ r) h

theorem colUpper_mul_solve_upper_step {n : Nat} (e1 Y : Matrix (Fin n) (Fin n) F) (k : Fin n)
    (hk : e1 k k ≠ 0) : colUpper e1 k * solve_upper_step e1 k Y = Y := by
  ext r l
  rw [colUpper_mul_apply]
  rcases lt_trichotomy r k with h | h | h
  · have h1 : r ≤ k := le_of_lt h
    have h2 : r ≠ k := ne_of_lt h
    simp [solve_upper_step, h, h1, h2]
  · subst h
    simp only [solve_upper_step, le_refl, if_true, add_zero]
    field_simp
  · have h1 : ¬ r ≤ k := not_le.mpr h
    have h2 : r ≠ k := ne_of_gt h
    have h3 : ¬ r < k := not_lt.mpr (le_of_lt h)
    simp [solve_upper_step, h1, h2, h3]

theorem upperFrom_succ {n : Nat} (m : Matrix (Fin n) (Fin n) F) (k : Fin n) :
    upperFrom m k.val = upperFrom m (k.val + 1) * colUpper m k := by
  ext r c
  rw [Matrix.mul_apply]
  by_cases hc : c = k
  · subst hc
    rw [Finset.sum_eq_single r]
    · by_cases h : r ≤ c
      · have h1 : ¬ (c.val + 1 ≤ r.val) := by
          have := Fin.le_def.mp h
          omega
        simp [upperFrom, colUpper, h, h1]
      · simp [upperFrom, colUpper, h]
    · intro t _ ht
      by_cases h : t ≤ c
      · have h1 : ¬ (c.val + 1 ≤ t.val) := by
          have := Fin.le_def.mp h
          omega
        simp [upperFrom, colUpper, h, h1, Ne.symm ht]
      · simp [upperFrom, colUpper, h]
    · intro h
      exact absurd (Finset.mem_univ r) h
  · rw [Finset.sum_eq_single c]
    · have h1 : k.val + 1 ≤ c.val ↔ k.val ≤ c.val := by
        have : c.val ≠ k.val := fun h => hc (Fin.ext h)
        omega
      simp [upperFrom, colUpper, hc, h1]
    · intro t _ ht
      simp [colUpper, hc, ht]
    · intro h
      exact absurd (Finset.mem_univ c) h

theorem inplace_solve_upper_spec {n : Nat} (e1 B : Matrix (Fin n) (Fin n) F)
    (hd : ∀ k : Fin n, e1 k k ≠ 0) :
    upperAndRest e1 n * inplace_solve_upper e1 B = B := by
  have h0 : upperAndRest e1 n = upperFrom e1 0 := by
    ext r c
    have h1 : ¬ (n ≤ r.val) := not_le.mpr r.isLt
    simp [upperAndRest, upperFrom, h1]
  rw [h0]
  unfold inplace_solve_upper
  refine foldr_finRange_induction _ B (fun k Y => upperFrom e1 k * Y = B) ?_ ?_
  · have h1 : upperFrom e1 n = 1 := by
      ext r c
      have : ¬ (n ≤ c.val) := not_le.mpr c.isLt
      simp [upperFrom, this, Matrix.one_apply]
    simp [h1]
  · intro i Y hY
    show upperFrom e1 i.val * solve_upper_step e1 i Y = B
    rw [upperFrom_succ, Matrix.mul_assoc, colUpper_mul_solve_upper_step e1 Y i (hd i), hY]

/-! ### `InvertMatrix` -/

theorem det_unitLower {n : Nat} (m : Matrix (Fin n) (Fin n) F) (k : Nat) :
    (unitLower m k).det = 1 := by
  rw [Matrix.det_of_lowerTriangular]
  · simp [unitLower]
  · intro i j hij
    have hij' : i < j := hij
    have h1 : i ≠ j := ne_of_lt hij'
    have h2 : ¬ j < i := not_lt.mpr (le_of_lt hij')
    simp [unitLower, h1, h2]

theorem det_upperAndRest {n : Nat} (m : Matrix (Fin n) (Fin n) F) :
    (upperAndRest m n).det = ∏ j : Fin n, m j j := by
  rw [Matrix.det_of_upperTriangular]
  · apply Finset.prod_congr rfl
    intro j _
    simp [upperAndRest]
  · intro i j hij
    have hij' : j < i := hij
    have h1 : ¬ i ≤ j := not_le.mpr hij'
    have h2 : ¬ n ≤ i.val := not_le.mpr i.isLt
    simp [upperAndRest, h1, h2]

theorem lu_factorize_singular [DecidableEq F] {n : Nat} (A : Matrix (Fin n) (Fin n) F) :
    (lu_factorize A).singular = 0 ↔ A.det ≠ 0 := by
  obtain ⟨hLU, _, hsing⟩ := lu_factorize_invariant A
  have hdet := congrArg Matrix.det hLU
  rw [Matrix.det_mul, det_unitLower, one_mul, det_upperAndRest, Matrix.det_permute] at hdet
  rw [hsing]
  have hsign : ((Equiv.Perm.sign (perm_upto (lu_factorize A).pm n) : ℤˣ) : F) ≠ 0 := by
    rcases Int.units_eq_one_or (Equiv.Perm.sign (perm_upto (lu_factorize A).pm n)) with h | h
    · rw [h]; simp
    · rw [h]; simp
  constructor
  · intro h hA
    have hprod : ∏ j : Fin n, (lu_factorize A).m j j ≠ 0 :=
      Finset.prod_ne_zero_iff.mpr (fun j _ => h j j.isLt)
    rw [hdet, hA, mul_zero] at hprod
    exact hprod rfl
  · intro hA j _ hj
    have hprod : ∏ j : Fin n, (lu_factorize A).m j j = 0 :=
      Finset.prod_eq_zero (Finset.mem_univ j) hj
    rw [hdet] at hprod
    rcases mul_eq_zero.mp hprod with h | h
    · exact hsign h
    · exact hA h

theorem lu_substitute_spec [DecidableEq F] {n : Nat} (A : Matrix (Fin n) (Fin n) F)
    (h : (lu_factorize A).singular = 0) :
    A * lu_substitute (lu_factorize A).m (lu_factorize A).pm 1 = 1 := by
  obtain ⟨hLU, _, hsing⟩ := lu_factorize_invariant A
  have hd : ∀ k : Fin n, (lu_factorize A).m k k ≠ 0 := fun k => hsing.mp h k k.isLt
  have h1 := inplace_solve_upper_spec (lu_factorize A).m
    (inplace_solve_unit_lower (lu_factorize A).m (swap_rows (lu_factorize A).pm 1)) hd
  have h2 := inplace_solve_unit_lower_spec (lu_factorize A).m (swap_rows (lu_factorize A).pm 1)
  have h3 : A.submatrix (perm_upto (lu_factorize A).pm n) id
      * lu_substitute (lu_factorize A).m (lu_factorize A).pm 1
      = (1 : Matrix (Fin n) (Fin n) F).submatrix (perm_upto (lu_factorize A).pm n) id := by
    rw [← hLU, Matrix.mul_assoc]
    unfold lu_substitute
    rw [h1, h2, swap_rows_eq]
  ext r c
  have h4 := congrFun (congrFun h3 ((perm_upto (lu_factorize A).pm n).symm r)) c
  simp only [Matrix.mul_apply, Matrix.submatrix_apply, id, Equiv.apply_symm_apply] at h4
  rw [Equiv.apply_symm_apply] at h4
  rw [Matrix.mul_apply]
  exact h4

/-- The value of `InvertMatrix`, in closed form. -/
theorem InvertMatrix_eq [DecidableEq F] {n : Nat} (A inverse : Matrix (Fin n) (Fin n) F) :
    InvertMatrix A inverse = if A.det = 0 then (false, inverse) else (true, A⁻¹) := by
  unfold InvertMatrix
  by_cases hA : A.det = 0
  · have h : (lu_factorize A).singular ≠ 0 := fun h => (lu_factorize_singular A).mp h hA
    simp [hA, h]
  · have h : (lu_factorize A).singular = 0 := (lu_factorize_singular A).mpr hA
    have h1 := lu_substitute_spec A h
    simp only [h, hA, ne_eq, not_true_eq_false, if_false]
    rw [Matrix.inv_eq_right_inv h1]

/-! ### `get_mds_matrix` -/

theorem foldlM_except_eq {ι σ : Type} (E : Failure) (bad : ι → Prop) [DecidablePred bad]
    (h : σ → ι → σ) : ∀ (l : List ι) (init : σ),
    l.foldlM (fun s i => if bad i then Except.error E else Except.ok (h s i)) init
      = if ∃ i ∈ l, bad i then Except.error E else Except.ok (l.foldl h init)
  | [], init => by simp [pure, Except.pure]
  | a :: l, init => by
    rw [List.foldlM_cons]
    by_cases ha : bad a
    · simp [ha, bind, Except.bind]
    · have ih := foldlM_except_eq E bad h l (h init a)
      simp only [ha, if_false, bind, Except.bind]
      rw [ih]
      simp [ha]

theorem foldl_update_finRange {α : Type} {n : Nat} (g : Fin n → α) (init : Fin n → α) :
    (List.finRange n).foldl (fun M i => Function.update M i (g i)) init = g := by
  have h := foldl_finRange_induction (fun (M : Fin n → α) i => Function.update M i (g i)) init
    (fun k M => ∀ c : Fin n, c.val < k → M c = g c) (fun c hc => absurd hc (Nat.not_lt_zero _))
    (by
      intro i M hM c hc
      show Function.update M i (g i) c = g c
      by_cases hci : c = i
      · rw [hci, Function.update_same]
      · rw [Function.update_noteq hci]
        exact hM c (by
          have : c.val ≠ i.val := fun h => hci (Fin.ext h)
          omega))
  funext c
  exact h c c.isLt

omit [Field F] in
theorem foldl_insert_element {n : Nat} (g : Fin n → F) (i : Fin n)
    (init : Matrix (Fin n) (Fin n) F) :
    (List.finRange n).foldl (fun M j => insert_element M i j (g j)) init
      = Function.update init i g := by
  have h := foldl_finRange_induction (fun (M : Matrix (Fin n) (Fin n) F) j =>
      insert_element M i j (g j)) init
    (fun k M => (∀ r : Fin n, r ≠ i → M r = init r) ∧ ∀ c : Fin n, c.val < k → M i c = g c)
    ⟨fun _ _ => rfl, fun c hc => absurd hc (Nat.not_lt_zero _)⟩
    (by
      intro j M hM
      refine ⟨?_, ?_⟩
      · intro r hr
        simp only [insert_element, Function.update_noteq hr]
        exact hM.1 r hr
      · intro c hc
        simp only [insert_element, Function.update_same]
        by_cases hcj : c = j
        · rw [hcj, Function.update_same]
        · rw [Function.update_noteq hcj]
          exact hM.2 c (by
            have : c.val ≠ j.val := fun h => hcj (Fin.ext h)
            omega))
  funext r
  by_cases hr : r = i
  · subst hr
    rw [Function.update_same]
    funext c
    exact h.2 c c.isLt
  · rw [Function.update_noteq hr]
    exact h.1 r hr

/-- The value of `get_mds_matrix`, in closed form. -/
theorem get_mds_matrix_eq [DecidableEq F] (Arity : Nat) :
    get_mds_matrix F Arity
      = if valid_parameters F Arity then Except.ok (mds_entries F Arity)
        else Except.error Failure.no_inverse := by
  have hinner : ∀ (i : Fin (Arity + 1)) (M : mds_matrix_type F Arity),
      (List.finRange (Arity + 1)).foldlM
        (fun (mds_matrix : mds_matrix_type F Arity) j =>
          (get_inverse (((i.val + (j.val + state_words Arity) : Nat) : F))).map
            (insert_element mds_matrix i j)) M
      = if (∃ j : Fin (Arity + 1), ((i.val + (j.val + state_words Arity) : Nat) : F) = 0)
        then Except.error Failure.no_inverse
        else Except.ok (Function.update M i (mds_entries F Arity i)) := by
    intro i M
    have hbody : (fun (mds_matrix : mds_matrix_type F Arity) (j : Fin (Arity + 1)) =>
          (get_inverse (((i.val + (j.val + state_words Arity) : Nat) : F))).map
            (insert_element mds_matrix i j))
        = fun s j => if ((i.val + (j.val + state_words Arity) : Nat) : F) = 0
            then Except.error Failure.no_inverse
            else Except.ok (insert_element s i j (mds_entries F Arity i j)) := by
      funext s j
      unfold get_inverse
      by_cases h0 : ((i.val + (j.val + state_words Arity) : Nat) : F) = 0
      · simp only [h0, if_true]
        rfl
      · simp only [h0, if_false]
        rfl
    rw [hbody, foldlM_except_eq, foldl_insert_element]
    simp [List.mem_finRange]
  unfold get_mds_matrix
  have houter : (fun (mds_matrix : mds_matrix_type F Arity) (i : Fin (Arity + 1)) =>
        (List.finRange (Arity + 1)).foldlM
          (fun (mds_matrix : mds_matrix_type F Arity) j =>
            (get_inverse (((i.val + (j.val + state_words Arity) : Nat) : F))).map
              (insert_element mds_matrix i j)) mds_matrix)
      = fun s i =>
          if (∃ j : Fin (Arity + 1), ((i.val + (j.val + state_words Arity) : Nat) : F) = 0)
          then Except.error Failure.no_inverse
          else Except.ok (Function.update s i (mds_entries F Arity i)) := by
    funext s i
    exact hinner i s
  rw [houter]
  have hfold := foldlM_except_eq Failure.no_inverse
    (fun i : Fin (Arity + 1) =>
      ∃ j : Fin (Arity + 1), ((i.val + (j.val + state_words Arity) : Nat) : F) = 0)
    (fun (s : mds_matrix_type F Arity) i => Function.update s i (mds_entries F Arity i))
    (List.finRange (Arity + 1)) (0 : mds_matrix_type F Arity)
  rw [show List.foldl (fun (s : mds_matrix_type F Arity) i =>
        Function.update s i (mds_entries F Arity i)) 0 (List.finRange (Arity + 1))
      = mds_entries F Arity from foldl_update_finRange (mds_entries F Arity) 0] at hfold
  refine Eq.trans hfold ?_
  by_cases hv : valid_parameters F Arity
  · have : ¬ ∃ i ∈ List.finRange (Arity + 1), ∃ j : Fin (Arity + 1),
        ((i.val + (j.val + state_words Arity) : Nat) : F) = 0 := by
      rintro ⟨i, _, j, hj⟩
      exact hv i j hj
    simp only [this, hv, if_true, if_false]
  · have : ∃ i ∈ List.finRange (Arity + 1), ∃ j : Fin (Arity + 1),
        ((i.val + (j.val + state_words Arity) : Nat) : F) = 0 := by
      unfold valid_parameters at hv
      push_neg at hv
      obtain ⟨i, j, hj⟩ := hv
      exact ⟨i, List.mem_finRange i, j, hj⟩
    simp only [this, hv, if_true, if_false]

/-! ### The MDS matrix is a Cauchy matrix -/

open Polynomial in
theorem cauchy_det_ne_zero {m : Nat} (x y : Fin m → F) (hx : Function.Injective x)
    (hy : Function.Injective y) (hxy : ∀ i j, x i + y j ≠ 0) :
    (Matrix.of (fun i j => (x i + y j)⁻¹)).det ≠ 0 := by
  intro hdet
  obtain ⟨v, hv0, hv⟩ := Matrix.exists_mulVec_eq_zero_iff.mpr hdet
  let P : Polynomial F := ∑ j, C (v j) * ∏ k in Finset.univ.erase j, (X + C (y k))
  have hdeg : P.degree < m := by
    apply lt_of_le_of_lt (Polynomial.degree_sum_le _ _)
    refine (Finset.sup_lt_iff (WithBot.bot_lt_coe m)).mpr ?_
    intro j _
    have h1 : (∏ k in Finset.univ.erase j, (X + C (y k))).degree = ((m - 1 : Nat) : WithBot Nat) := by
      rw [Polynomial.degree_prod]
      simp [Polynomial.degree_X_add_C]
    have h2 : (C (v j) * ∏ k in Finset.univ.erase j, (X + C (y k))).degree ≤ ((m - 1 : Nat) : WithBot Nat) := by
      rw [Polynomial.degree_mul, h1]
      calc (C (v j)).degree + ((m - 1 : Nat) : WithBot Nat)
          ≤ 0 + ((m - 1 : Nat) : WithBot Nat) := add_le_add_right Polynomial.degree_C_le _
        _ = ((m - 1 : Nat) : WithBot Nat) := zero_add _
    apply lt_of_le_of_lt h2
    have : 0 < m := Fin.pos j
    exact WithBot.coe_lt_coe.mpr (by omega : m - 1 < m)
  have heval : ∀ i, P.eval (x i) = 0 := by
    intro i
    have hi := congrFun hv i
    simp only [Matrix.mulVec, Matrix.dotProduct, Matrix.of_apply, Pi.zero_apply] at hi
    simp only [P, Polynomial.eval_finset_sum, Polynomial.eval_mul, Polynomial.eval_C,
      Polynomial.eval_prod, Polynomial.eval_add, Polynomial.eval_X]
    have hterm : ∀ j, v j * ∏ k in Finset.univ.erase j, (x i + y k)
        = (∏ k, (x i + y k)) * ((x i + y j)⁻¹ * v j) := by
      intro j
      rw [← Finset.mul_prod_erase Finset.univ (fun k => x i + y k) (Finset.mem_univ j)]
      field_simp [hxy i j]
      ring
    simp only [hterm]
    rw [← Finset.mul_sum, hi, mul_zero]
  have hP : P = 0 :=
    Polynomial.eq_zero_of_degree_lt_of_eval_index_eq_zero Finset.univ (hx.injOn)
      (by simpa using hdeg) (fun i _ => heval i)
  have hvz : ∀ j, v j = 0 := by
    intro j
    have h := congrArg (Polynomial.eval (- y j)) hP
    simp only [P, Polynomial.eval_finset_sum, Polynomial.eval_mul, Polynomial.eval_C,
      Polynomial.eval_prod, Polynomial.eval_add, Polynomial.eval_X, Polynomial.eval_zero] at h
    rw [Finset.sum_eq_single j] at h
    · rcases mul_eq_zero.mp h with h | h
      · exact h
      · exfalso
        rw [Finset.prod_eq_zero_iff] at h
        obtain ⟨k, hk, hk0⟩ := h
        have : y k = y j := by linear_combination hk0
        exact (Finset.ne_of_mem_erase hk) (hy this)
    · intro j' _ hj'
      apply mul_eq_zero_of_right
      apply Finset.prod_eq_zero (Finset.mem_erase.mpr ⟨Ne.symm hj', Finset.mem_univ j⟩)
      ring
    · intro h
      exact absurd (Finset.mem_univ j) h
  exact hv0 (funext hvz)

theorem cast_ne_zero_of_valid {Arity : Nat} (hv : valid_parameters F Arity) (d : Nat)
    (h1 : 1 ≤ d) (h2 : d ≤ Arity) : ((d : Nat) : F) ≠ 0 := by
  intro h0
  have hlt : Arity + 1 < (Arity + 1) / d * d + d := Nat.lt_div_mul_add (by omega)
  have hle : (Arity + 1) / d * d ≤ Arity + 1 := Nat.div_mul_le_self _ _
  have hj : (Arity + 1) / d * d + d - (Arity + 1) < Arity + 1 := by omega
  have h := hv 0 ⟨(Arity + 1) / d * d + d - (Arity + 1), hj⟩
  apply h
  have e : (0 : Fin (Arity + 1)).val + ((Arity + 1) / d * d + d - (Arity + 1) + state_words Arity)
      = ((Arity + 1) / d + 1) * d := by
    simp only [state_words, Fin.val_zero]
    rw [Nat.add_mul, Nat.one_mul]
    omega
  show (((0 : Fin (Arity + 1)).val
    + ((Arity + 1) / d * d + d - (Arity + 1) + state_words Arity) : Nat) : F) = 0
  rw [e, Nat.cast_mul, h0, mul_zero]

theorem cast_eq_of_valid {Arity : Nat} (hv : valid_parameters F Arity) (a b : Nat)
    (hab : a ≤ b) (hd : b - a ≤ Arity) (h : (a : F) = (b : F)) : a = b := by
  by_contra hne
  have h1 : 1 ≤ b - a := by omega
  apply cast_ne_zero_of_valid hv (b - a) h1 hd
  have : ((b - a : Nat) : F) + (a : F) = (b : F) := by
    rw [← Nat.cast_add]
    congr 1
    omega
  rw [← h] at this
  simpa using this

theorem cast_shift_injective {Arity : Nat} (hv : valid_parameters F Arity) (s : Nat) {m : Nat}
    (hm : m ≤ Arity + 1) : Function.Injective (fun i : Fin m => (((i.val + s : Nat)) : F)) := by
  intro i j hij
  apply Fin.ext
  rcases Nat.le_total i.val j.val with h | h
  · have := cast_eq_of_valid hv (i.val + s) (j.val + s) (by omega) (by omega) hij
    omega
  · have := cast_eq_of_valid hv (j.val + s) (i.val + s) (by omega) (by omega) hij.symm
    omega

/-- Under valid parameters the matrix of `get_mds_matrix` is non-singular. -/
theorem mds_entries_det_ne_zero {Arity : Nat} (hv : valid_parameters F Arity) :
    (mds_entries F Arity).det ≠ 0 := by
  have h := cauchy_det_ne_zero (fun i : Fin (Arity + 1) => (((i.val + 0 : Nat)) : F))
    (fun j : Fin (Arity + 1) => (((j.val + state_words Arity : Nat)) : F))
    (cast_shift_injective hv 0 (le_refl _)) (cast_shift_injective hv _ (le_refl _))
    (by
      intro i j
      have := hv i j
      rw [← Nat.cast_add]
      simpa using this)
  have e : mds_entries F Arity
      = Matrix.of (fun i j : Fin (Arity + 1) =>
          ((((i.val + 0 : Nat)) : F) + (((j.val + state_words Arity : Nat)) : F))⁻¹) := by
    ext i j
    simp [mds_entries, Nat.cast_add]
  rw [e]
  exact h

/-- Under valid parameters the matrix of `get_mds_matrix` without its first
row and column is non-singular. -/
theorem mds_entries_sub_det_ne_zero {Arity : Nat} (hv : valid_parameters F Arity) :
    ((mds_entries F Arity).submatrix Fin.succ Fin.succ).det ≠ 0 := by
  have h := cauchy_det_ne_zero (fun i : Fin Arity => (((i.val + 1 : Nat)) : F))
    (fun j : Fin Arity => (((j.val + (1 + state_words Arity) : Nat)) : F))
    (cast_shift_injective hv 1 (Nat.le_succ _)) (cast_shift_injective hv _ (Nat.le_succ _))
    (by
      intro i j
      have := hv i.succ j.succ
      rw [← Nat.cast_add]
      simp only [Fin.val_succ] at this
      intro h0
      apply this
      rw [← h0]
      congr 1
      omega)
  have e : (mds_entries F Arity).submatrix Fin.succ Fin.succ
      = Matrix.of (fun i j : Fin Arity =>
          ((((i.val + 1 : Nat)) : F) + (((j.val + (1 + state_words Arity) : Nat)) : F))⁻¹) := by
    ext i j
    simp only [mds_entries, Matrix.submatrix_apply, Matrix.of_apply, Fin.val_succ]
    rw [← Nat.cast_add]
    congr 2
    omega
  rw [e]
  exact h

/-! ### Matrices given by a corner, a row, a column and a block -/

omit [Field F] in
@[simp]
theorem block_zero_zero {n : Nat} (a : F) (v w : Fin n → F)
    (X : Matrix (Fin n) (Fin n) F) : block a v w X 0 0 = a := by
  simp [block]

omit [Field F] in
@[simp]
theorem block_zero_succ {n : Nat} (a : F) (v w : Fin n → F)
    (X : Matrix (Fin n) (Fin n) F) (c : Fin n) : block a v w X 0 c.succ = v c := by
  simp [block, Fin.succ_ne_zero]

omit [Field F] in
@[simp]
theorem block_succ_zero {n : Nat} (a : F) (v w : Fin n → F)
    (X : Matrix (Fin n) (Fin n) F) (r : Fin n) : block a v w X r.succ 0 = w r := by
  simp [block, Fin.succ_ne_zero]

omit [Field F] in
@[simp]
theorem block_succ_succ {n : Nat} (a : F) (v w : Fin n → F)
    (X : Matrix (Fin n) (Fin n) F) (r c : Fin n) : block a v w X r.succ c.succ = X r c := by
  simp [block, Fin.succ_ne_zero]

omit [Field F] in
theorem eq_block {n : Nat} (N : Matrix (Fin (n + 1)) (Fin (n + 1)) F) :
    N = block (N 0 0) (fun c => N 0 c.succ) (fun r => N r.succ 0)
      (N.submatrix Fin.succ Fin.succ) := by
  ext r c
  refine Fin.cases ?_ (fun r' => ?_) r <;> refine Fin.cases ?_ (fun c' => ?_) c <;> simp

theorem block_mul {n : Nat} (a a' : F) (v v' w w' : Fin n → F)
    (X X' : Matrix (Fin n) (Fin n) F) :
    block a v w X * block a' v' w' X'
      = block (a * a' + Matrix.dotProduct v w') (a • v' + Matrix.vecMul v X')
          (a' • w + Matrix.mulVec X w') (Matrix.vecMulVec w v' + X * X') := by
  ext r c
  rw [Matrix.mul_apply, Fin.sum_univ_succ]
  refine Fin.cases ?_ (fun r' => ?_) r <;> refine Fin.cases ?_ (fun c' => ?_) c
  · simp [Matrix.dotProduct]
  · simp [Matrix.vecMul, Matrix.dotProduct]
  · simp [Matrix.mulVec, Matrix.dotProduct, mul_comm]
  · simp [Matrix.vecMulVec_apply, Matrix.mul_apply]

theorem vecMul_block {n : Nat} (s : Fin (n + 1) → F) (a : F) (v w : Fin n → F)
    (X : Matrix (Fin n) (Fin n) F) :
    Matrix.vecMul s (block a v w X)
      = Fin.cons (s 0 * a + Matrix.dotProduct (fun k => s k.succ) w)
          (s 0 • v + Matrix.vecMul (fun k => s k.succ) X) := by
  funext c
  simp only [Matrix.vecMul, Matrix.dotProduct]
  rw [Fin.sum_univ_succ]
  refine Fin.cases ?_ (fun c' => ?_) c
  · simp
  · simp [Matrix.vecMul, Matrix.dotProduct]

/-! ### The loop of `get_equivalent_mds_matrix` -/

theorem optimizer_loop_eq [DecidableEq F] {Arity : Nat} (part_rounds : Nat)
    (M : mds_matrix_type F Arity) :
    optimizer_loop part_rounds M = optimizer_state_at part_rounds M part_rounds := by
  unfold optimizer_loop
  refine foldl_finRange_induction (optimizer_step M) _
    (fun k st => st = optimizer_state_at part_rounds M k) rfl ?_
  intro i st hst
  rw [hst]
  simp [optimizer_state_at, i.isLt]

theorem one_eq_block {n : Nat} :
    (1 : Matrix (Fin (n + 1)) (Fin (n + 1)) F) = block 1 0 0 1 := by
  ext r c
  refine Fin.cases ?_ (fun r' => ?_) r <;> refine Fin.cases ?_ (fun c' => ?_) c <;>
    simp [Matrix.one_apply, Fin.succ_ne_zero, (Fin.succ_ne_zero _).symm]

theorem mul_blockDiag {Arity : Nat} (M : mds_matrix_type F Arity)
    (X : Matrix (Fin Arity) (Fin Arity) F) :
    M * block 1 0 0 X
      = block (M 0 0) (Matrix.vecMul (fun c => M 0 c.succ) X) (fun r => M r.succ 0)
          (M.submatrix Fin.succ Fin.succ * X) := by
  have h0 : Matrix.vecMulVec (fun r : Fin Arity => M r.succ 0) (0 : Fin Arity → F) = 0 := by
    ext r c
    simp [Matrix.vecMulVec_apply]
  conv_lhs => rw [eq_block M]
  rw [block_mul, h0]
  simp

/-- The values of the variables of the loop of `get_equivalent_mds_matrix`
when iteration `k` starts, with `H` the matrix without its first row and
column: `M_i` is `diag (1, H ^ k)`, `M_mul` is the matrix times `M_i`, and the
vectors stored by the earlier iterations are those of the powers of `H`. -/
theorem optimizer_state_at_spec [DecidableEq F] {Arity : Nat} (part_rounds : Nat)
    (M : mds_matrix_type F Arity) : ∀ k : Nat, k ≤ part_rounds →
    (optimizer_state_at part_rounds M k).M_i
        = block 1 0 0 ((M.submatrix Fin.succ Fin.succ) ^ k) ∧
    (optimizer_state_at part_rounds M k).M_mul
        = M * block 1 0 0 ((M.submatrix Fin.succ Fin.succ) ^ k) ∧
    (∀ j : Fin part_rounds, j.val < k →
      (optimizer_state_at part_rounds M k).v_list j
        = Matrix.vecMul (fun c => M 0 c.succ) ((M.submatrix Fin.succ Fin.succ) ^ j.val)) ∧
    (∀ j : Fin part_rounds, j.val < k →
      ((M.submatrix Fin.succ Fin.succ) ^ (j.val + 1)).det ≠ 0 →
      (optimizer_state_at part_rounds M k).w_hat_list j
        = Matrix.mulVec ((M.submatrix Fin.succ Fin.succ) ^ (j.val + 1))⁻¹ (fun r => M r.succ 0))
  | 0, _ => by
    refine ⟨?_, ?_, fun j hj => absurd hj (Nat.not_lt_zero _),
      fun j hj => absurd hj (Nat.not_lt_zero _)⟩
    · simp only [optimizer_state_at, optimizer_init, pow_zero]
      exact one_eq_block
    · simp only [optimizer_state_at, optimizer_init, pow_zero]
      rw [← one_eq_block, Matrix.mul_one]
  | k + 1, hk1 => by
    have hk : k < part_rounds := hk1
    obtain ⟨hMi, hMul, hv, hw⟩ := optimizer_state_at_spec part_rounds M k (le_of_lt hk)
    have hsub : (optimizer_state_at part_rounds M k).M_mul.submatrix Fin.succ Fin.succ
        = (M.submatrix Fin.succ Fin.succ) ^ (k + 1) := by
      rw [hMul, mul_blockDiag, pow_succ']
      ext r c
      simp
    have hcol : (fun r : Fin Arity => (optimizer_state_at part_rounds M k).M_mul r.succ 0)
        = fun r => M r.succ 0 := by
      funext r
      rw [hMul, mul_blockDiag]
      simp
    have hrow : (fun c : Fin Arity => (optimizer_state_at part_rounds M k).M_mul 0 c.succ)
        = Matrix.vecMul (fun c => M 0 c.succ) ((M.submatrix Fin.succ Fin.succ) ^ k) := by
      funext c
      rw [hMul, mul_blockDiag]
      simp
    have hMi' : assign_subrange (optimizer_state_at part_rounds M k).M_i
        (optimizer_state_at part_rounds M k).M_mul
        = block 1 0 0 ((M.submatrix Fin.succ Fin.succ) ^ (k + 1)) := by
      rw [← hsub, hMi]
      ext r c
      refine Fin.cases ?_ (fun r' => ?_) r <;> refine Fin.cases ?_ (fun c' => ?_) c <;>
        simp [assign_subrange, Fin.succ_ne_zero]
    simp only [optimizer_state_at, hk, dif_pos, optimizer_step]
    refine ⟨hMi', by rw [hMi'], ?_, ?_⟩
    · intro j hj
      by_cases hjk : j = ⟨k, hk⟩
      · rw [hjk, Function.update_same, hrow]
      · rw [Function.update_noteq hjk]
        exact hv j (by
          have : j.val ≠ k := fun h => hjk (Fin.ext h)
          omega)
    · intro j hj hdet
      by_cases hjk : j = ⟨k, hk⟩
      · have hdet' : ((M.submatrix Fin.succ Fin.succ) ^ (k + 1)).det ≠ 0 := by
          rw [hjk] at hdet
          exact hdet
        rw [hjk, Function.update_same, hsub, hcol, InvertMatrix_eq, if_neg hdet']
      · rw [Function.update_noteq hjk]
        exact hw j (by
          have : j.val ≠ k := fun h => hjk (Fin.ext h)
          omega) hdet

/-! ### `product_with_equivalent_mds_matrix` -/

theorem size_t_sub_eq (a b : Nat) (hb : b ≤ a) (ha : a < 2 ^ 64) : size_t_sub a b = a - b := by
  simp only [size_t_sub, size_t_bits]
  norm_num at ha ⊢
  omega

theorem size_t_add_eq (a b : Nat) (h : a + b < 2 ^ 64) : size_t_add a b = a + b := by
  simp only [size_t_add, size_t_bits]
  exact Nat.mod_eq_of_lt h

theorem matrix_number_base_eq (half_full_rounds part_rounds round_number : Nat)
    (h1 : half_full_rounds ≤ round_number)
    (h2 : round_number < half_full_rounds + part_rounds)
    (hsz : half_full_rounds + part_rounds < 2 ^ 64) :
    matrix_number_base half_full_rounds part_rounds round_number
      = part_rounds - (round_number - half_full_rounds) - 1 := by
  unfold matrix_number_base
  have e1 : size_t_sub round_number half_full_rounds = round_number - half_full_rounds :=
    size_t_sub_eq _ _ h1 (by omega)
  have e2 : size_t_sub part_rounds (round_number - half_full_rounds)
      = part_rounds - (round_number - half_full_rounds) :=
    size_t_sub_eq _ _ (by omega) (by omega)
  rw [e1, e2]
  exact size_t_sub_eq _ _ (by omega) (by omega)

theorem add_first_word_multiples_eq {Arity : Nat} (A_0 : F) (v : Fin Arity → F)
    (A : state_vector_type F Arity) :
    add_first_word_multiples A_0 v A = Fin.cons (A 0) (fun k => A_0 * v k + A k.succ) := by
  unfold add_first_word_multiples
  have h := foldl_finRange_induction
    (fun (X : state_vector_type F Arity) (k : Fin Arity) =>
      Function.update X k.succ (A_0 * v k + X k.succ)) A
    (fun j X => X 0 = A 0 ∧ ∀ k : Fin Arity,
      X k.succ = if k.val < j then A_0 * v k + A k.succ else A k.succ)
    ⟨rfl, fun k => by simp⟩
    (by
      intro i X hX
      refine ⟨?_, ?_⟩
      · show Function.update X i.succ (A_0 * v i + X i.succ) 0 = A 0
        rw [Function.update_noteq (Fin.succ_ne_zero i).symm]
        exact hX.1
      · intro k
        show Function.update X i.succ (A_0 * v i + X i.succ) k.succ = _
        by_cases hki : k = i
        · subst hki
          rw [Function.update_same, hX.2 k]
          simp
        · have hne : k.succ ≠ i.succ := fun h => hki (Fin.succ_injective _ h)
          rw [Function.update_noteq hne, hX.2 k]
          have : k.val ≠ i.val := fun h => hki (Fin.ext h)
          by_cases h1 : k.val < i.val
          · have h2 : k.val < i.val + 1 := by omega
            simp [h1, h2]
          · have h2 : ¬ k.val < i.val + 1 := by omega
            simp [h1, h2])
  funext c
  refine Fin.cases ?_ (fun k => ?_) c
  · simpa using h.1
  · simpa using h.2 k

/-- The value of `product_with_equivalent_mds_matrix` at a round of the span
of the rounds it is for, as a product with the sparse matrix. -/
theorem product_with_equivalent_mds_matrix_eq [DecidableEq F] {Arity : Nat}
    (half_full_rounds part_rounds : Nat) (t : equivalent_mds_matrix_type F Arity part_rounds)
    (ht : get_equivalent_mds_matrix F Arity part_rounds = Except.ok t)
    (s : state_vector_type F Arity) (round_number : Nat)
    (h1 : half_full_rounds ≤ round_number)
    (h2 : round_number < half_full_rounds + part_rounds)
    (hsz : half_full_rounds + part_rounds < 2 ^ 64)
    (b : Fin part_rounds) (hb : b.val = part_rounds - (round_number - half_full_rounds) - 1) :
    product_with_equivalent_mds_matrix half_full_rounds part_rounds s round_number
      = (Except.ok (),
          Matrix.vecMul s (sparse_factor t.M_0_0 (t.w_hat_list b) (t.v_list b))) := by
  have hassert : round_number ≥ half_full_rounds ∧
      round_number < size_t_add half_full_rounds part_rounds := by
    rw [size_t_add_eq _ _ hsz]
    exact ⟨h1, h2⟩
  have hmb := matrix_number_base_eq half_full_rounds part_rounds round_number h1 h2 hsz
  have hlt : part_rounds - (round_number - half_full_rounds) - 1 < part_rounds := by omega
  have hbb : (⟨part_rounds - (round_number - half_full_rounds) - 1, hlt⟩ : Fin part_rounds) = b :=
    Fin.ext hb.symm
  unfold product_with_equivalent_mds_matrix
  rw [if_neg (not_not.mpr hassert)]
  simp only [hmb, get_v, get_w_hat, get_M_0_0, ht, hlt, dif_pos, hbb]
  rw [add_first_word_multiples_eq, sparse_factor, vecMul_block]
  refine congrArg (Prod.mk (Except.ok ())) ?_
  funext c
  refine Fin.cases ?_ (fun k => ?_) c
  · simp only [Fin.cons_zero, Function.update_same, Matrix.dotProduct]
    rw [Fin.sum_univ_succ]
    simp
  · simp only [Fin.cons_succ]
    rw [Function.update_noteq (Fin.succ_ne_zero k)]
    simp [Matrix.vecMul_one]

/-! ### The factorisation behind the sparse calls -/

theorem get_equivalent_mds_matrix_eq [DecidableEq F] {Arity : Nat} (part_rounds : Nat)
    (M : mds_matrix_type F Arity) (hM : get_mds_matrix F Arity = Except.ok M) :
    get_equivalent_mds_matrix F Arity part_rounds
      = Except.ok
          { M_i := (optimizer_state_at part_rounds M part_rounds).M_i
            M_0_0 := M 0 0
            w_hat_list := (optimizer_state_at part_rounds M part_rounds).w_hat_list
            v_list := (optimizer_state_at part_rounds M part_rounds).v_list } := by
  unfold get_equivalent_mds_matrix
  rw [hM]
  simp only [optimizer_loop_eq]

theorem optimizer_submatrix [DecidableEq F] {Arity : Nat} (part_rounds : Nat)
    (M : mds_matrix_type F Arity) (k : Nat) (hk : k ≤ part_rounds) :
    (optimizer_state_at part_rounds M k).M_mul.submatrix Fin.succ Fin.succ
      = (M.submatrix Fin.succ Fin.succ) ^ (k + 1) := by
  rw [(optimizer_state_at_spec part_rounds M k hk).2.1, mul_blockDiag, pow_succ']
  ext r c
  simp

theorem optimizer_column [DecidableEq F] {Arity : Nat} (part_rounds : Nat)
    (M : mds_matrix_type F Arity) (k : Nat) (hk : k ≤ part_rounds) (r : Fin Arity) :
    (optimizer_state_at part_rounds M k).M_mul r.succ 0 = M r.succ 0 := by
  rw [(optimizer_state_at_spec part_rounds M k hk).2.1, mul_blockDiag]
  simp

/-- The sparse matrix of index `j` undoes one power of `H` in `diag (1, H ^ (j + 1))`
and leaves a dense factor behind. -/
theorem blockDiag_mul_sparse_factor {Arity : Nat} (M : mds_matrix_type F Arity) (j : Nat)
    (hdet : ((M.submatrix Fin.succ Fin.succ) ^ (j + 1)).det ≠ 0) :
    block 1 0 0 ((M.submatrix Fin.succ Fin.succ) ^ (j + 1))
        * sparse_factor (M 0 0)
            (Matrix.mulVec ((M.submatrix Fin.succ Fin.succ) ^ (j + 1))⁻¹ (fun r => M r.succ 0))
            (Matrix.vecMul (fun c => M 0 c.succ) ((M.submatrix Fin.succ Fin.succ) ^ j))
      = M * block 1 0 0 ((M.submatrix Fin.succ Fin.succ) ^ j) := by
  have hunit : IsUnit ((M.submatrix Fin.succ Fin.succ) ^ (j + 1)).det := isUnit_iff_ne_zero.mpr hdet
  rw [mul_blockDiag, sparse_factor, block_mul, Matrix.mulVec_mulVec,
    Matrix.mul_nonsing_inv _ hunit, ← pow_succ']
  have h0 : Matrix.vecMulVec (0 : Fin Arity → F)
      (Matrix.vecMul (fun c => M 0 c.succ) ((M.submatrix Fin.succ Fin.succ) ^ j)) = 0 := by
    ext r c
    simp [Matrix.vecMulVec_apply]
  rw [h0]
  simp

omit [Field F] in
theorem and_then_ok {V : Type} (x : V) (f : V → Except Failure Unit × V) :
    and_then (Except.ok (), x) f = f x := rfl

theorem dense_rounds_eq [DecidableEq F] {Arity : Nat} (M : mds_matrix_type F Arity)
    (hM : get_mds_matrix F Arity = Except.ok M) (s : state_vector_type F Arity) :
    ∀ k : Nat, dense_rounds k s = (Except.ok (), Matrix.vecMul s (M ^ k))
  | 0 => by simp [dense_rounds]
  | k + 1 => by
    have ih := dense_rounds_eq M hM s k
    unfold dense_rounds at ih ⊢
    rw [List.range_succ, List.foldl_append, ih]
    simp only [List.foldl_cons, List.foldl_nil, and_then_ok, product_with_mds_matrix, hM]
    rw [Matrix.vecMul_vecMul, pow_succ]

/-- The state after the first `k` calls of the optimised path. -/
theorem optimized_rounds_eq [DecidableEq F] {Arity : Nat} (half_full_rounds part_rounds : Nat)
    (hsz : half_full_rounds + part_rounds < 2 ^ 64)
    (M : mds_matrix_type F Arity) (hM : get_mds_matrix F Arity = Except.ok M)
    (hns : ∀ k : Nat, k < part_rounds →
      ((optimizer_state_at part_rounds M k).M_mul.submatrix Fin.succ Fin.succ).det ≠ 0)
    (s : state_vector_type F Arity) : ∀ k : Nat, k ≤ part_rounds →
    optimized_rounds half_full_rounds part_rounds k s
      = (Except.ok (), Matrix.vecMul s
          (M ^ k * block 1 0 0 ((M.submatrix Fin.succ Fin.succ) ^ (part_rounds - k))))
  | 0, _ => by
    have ht := get_equivalent_mds_matrix_eq part_rounds M hM
    simp only [optimized_rounds, List.range_zero, List.foldl_nil,
      product_with_equivalent_mds_matrix_init, ht, not_true_eq_false, if_false]
    rw [(optimizer_state_at_spec part_rounds M part_rounds (le_refl _)).1]
    simp
  | k + 1, hk1 => by
    have hk : k < part_rounds := hk1
    have ih := optimized_rounds_eq half_full_rounds part_rounds hsz M hM hns s k (le_of_lt hk)
    have ht := get_equivalent_mds_matrix_eq part_rounds M hM
    have hspec := optimizer_state_at_spec part_rounds M part_rounds (le_refl _)
    have hlt : part_rounds - (k + 1) < part_rounds := by omega
    have hdet : ((M.submatrix Fin.succ Fin.succ) ^ (part_rounds - (k + 1) + 1)).det ≠ 0 := by
      rw [← optimizer_submatrix part_rounds M (part_rounds - (k + 1)) (by omega)]
      exact hns _ hlt
    have hcall := product_with_equivalent_mds_matrix_eq half_full_rounds part_rounds _ ht
      (Matrix.vecMul s
        (M ^ k * block 1 0 0 ((M.submatrix Fin.succ Fin.succ) ^ (part_rounds - k))))
      (half_full_rounds + k) (by omega) (by omega) hsz ⟨part_rounds - (k + 1), hlt⟩
      (by simp only []; omega)
    unfold optimized_rounds at ih ⊢
    rw [List.range_succ, List.foldl_append, ih]
    simp only [List.foldl_cons, List.foldl_nil, and_then_ok]
    rw [hcall]
    simp only []
    rw [hspec.2.2.1 ⟨part_rounds - (k + 1), hlt⟩ hlt,
      hspec.2.2.2 ⟨part_rounds - (k + 1), hlt⟩ hlt hdet, Matrix.vecMul_vecMul, Matrix.mul_assoc]
    have e : part_rounds - k = part_rounds - (k + 1) + 1 := by omega
    rw [e, blockDiag_mul_sparse_factor M _ hdet, ← Matrix.mul_assoc, ← pow_succ]

/-! ### Valid parameters -/

theorem get_mds_matrix_of_valid [DecidableEq F] {Arity : Nat} (hv : valid_parameters F Arity) :
    get_mds_matrix F Arity = Except.ok (mds_entries F Arity) := by
  rw [get_mds_matrix_eq, if_pos hv]

theorem valid_of_get_mds_matrix [DecidableEq F] {Arity : Nat} (M : mds_matrix_type F Arity)
    (hM : get_mds_matrix F Arity = Except.ok M) :
    valid_parameters F Arity ∧ M = mds_entries F Arity := by
  rw [get_mds_matrix_eq] at hM
  by_cases hv : valid_parameters F Arity
  · rw [if_pos hv] at hM
    exact ⟨hv, (Except.ok.inj hM).symm⟩
  · rw [if_neg hv] at hM
    exact absurd hM (by simp)

/-- Under valid parameters every sub-matrix that the loop of
`get_equivalent_mds_matrix` inverts is non-singular. -/
theorem optimizer_submatrix_det_ne_zero [DecidableEq F] {Arity : Nat}
    (hv : valid_parameters F Arity) (part_rounds k : Nat) (hk : k ≤ part_rounds) :
    ((optimizer_state_at part_rounds (mds_entries F Arity) k).M_mul.submatrix
      Fin.succ Fin.succ).det ≠ 0 := by
  rw [optimizer_submatrix part_rounds _ k hk, Matrix.det_pow]
  exact pow_ne_zero _ (mds_entries_sub_det_ne_zero hv)

theorem valid_101 : valid_parameters (ZMod 101) 2 := by decide

theorem get_inverse_mds_matrix_of_valid [DecidableEq F] {Arity : Nat}
    (hv : valid_parameters F Arity) :
    get_inverse_mds_matrix F Arity true = Except.ok (mds_entries F Arity)⁻¹ := by
  unfold get_inverse_mds_matrix
  simp only [if_true]
  rw [get_mds_matrix_of_valid hv]
  simp only [InvertMatrix_eq, if_neg (mds_entries_det_ne_zero hv), if_true]

/-- In a build without assertions `get_inverse_mds_matrix` evaluates neither
`get_mds_matrix` nor `InvertMatrix`: whatever the parameters, it returns the
matrix as constructed. -/
theorem get_inverse_mds_matrix_without_assertions [DecidableEq F] (Arity : Nat) :
    get_inverse_mds_matrix F Arity false = Except.ok 0 := by
  simp only [get_inverse_mds_matrix, Bool.false_eq_true, if_false]

/-- In a build with assertions and for valid parameters the matrix of
`get_mds_matrix` times the matrix of `get_inverse_mds_matrix` is the identity
matrix; the MDS matrix is non-singular and `InvertMatrix` returns true on
it. -/
theorem mds_matrix_mul_inverse_with_assertions [DecidableEq F] {Arity : Nat}
    (hv : valid_parameters F Arity) :
    ∃ M Minv : mds_matrix_type F Arity,
      get_mds_matrix F Arity = Except.ok M ∧
      get_inverse_mds_matrix F Arity true = Except.ok Minv ∧
      M * Minv = 1 ∧ M.det ≠ 0 ∧
      ∀ inverse : mds_matrix_type F Arity, (InvertMatrix M inverse).1 = true := by
  refine ⟨mds_entries F Arity, (mds_entries F Arity)⁻¹, get_mds_matrix_of_valid hv,
    get_inverse_mds_matrix_of_valid hv, ?_, mds_entries_det_ne_zero hv, ?_⟩
  · exact Matrix.mul_nonsing_inv _ (isUnit_iff_ne_zero.mpr (mds_entries_det_ne_zero hv))
  · intro inverse
    rw [InvertMatrix_eq, if_neg (mds_entries_det_ne_zero hv)]

/-- In a build with assertions and for valid parameters,
`product_with_mds_matrix` followed by
`product_with_inverse_mds_matrix_noalias` into another vector returns the
original vector. -/
theorem product_with_inverse_after_product_with_assertions [DecidableEq F] {Arity : Nat}
    (hv : valid_parameters F Arity) (s A_vector_out : state_vector_type F Arity) :
    (product_with_mds_matrix s).1 = Except.ok () ∧
    product_with_inverse_mds_matrix_noalias true (product_with_mds_matrix s).2 A_vector_out false
      = (Except.ok (), s) := by
  have h1 : product_with_mds_matrix s
      = (Except.ok (), Matrix.vecMul s (mds_entries F Arity)) := by
    simp only [product_with_mds_matrix, get_mds_matrix_of_valid hv]
  rw [h1]
  refine ⟨rfl, ?_⟩
  simp only [product_with_inverse_mds_matrix_noalias, get_inverse_mds_matrix_of_valid hv,
    Bool.and_false, Bool.false_eq_true, if_false]
  rw [Matrix.vecMul_vecMul,
    Matrix.mul_nonsing_inv _ (isUnit_iff_ne_zero.mpr (mds_entries_det_ne_zero hv)),
    Matrix.vecMul_one]

/-- With the assertion compiled out, `product_with_inverse_mds_matrix_noalias`
writes the zero vector, whatever the parameters, the vectors and their
aliasing. -/
theorem product_with_inverse_without_assertions_eq [DecidableEq F] {Arity : Nat}
    (A_vector_in A_vector_out : state_vector_type F Arity) (same_object : Bool) :
    product_with_inverse_mds_matrix_noalias false A_vector_in A_vector_out same_object
      = (Except.ok (), 0) := by
  simp only [product_with_inverse_mds_matrix_noalias,
    get_inverse_mds_matrix_without_assertions, Bool.false_and, Bool.false_eq_true, if_false]
  cases same_object
  · simp only [Bool.false_eq_true, if_false, Matrix.vecMul_zero]
  · simp only [if_true]
    refine congrArg (Prod.mk (Except.ok ())) ?_
    unfold prod_in_place
    have key : ∀ (l : List (Fin (Arity + 1))) (v : state_vector_type F Arity),
        (∀ j, j ∉ l → v j = 0) →
        l.foldl (fun v j => Function.update v j
          (Matrix.vecMul v (0 : mds_matrix_type F Arity) j)) v = 0 := by
      intro l
      induction l with
      | nil =>
        intro v hv
        funext j
        exact hv j (List.not_mem_nil j)
      | cons a l ih =>
        intro v hv
        rw [List.foldl_cons]
        refine ih _ (fun j hj => ?_)
        by_cases hja : j = a
        · subst hja
          simp only [Function.update_same, Matrix.vecMul_zero, Pi.zero_apply]
        · rw [Function.update_noteq hja]
          exact hv j (fun h => (List.mem_cons.mp h).elim hja hj)
    exact key _ _ (fun j hj => absurd (List.mem_finRange j) hj)

theorem get_equivalent_mds_matrix_of_valid [DecidableEq F] {Arity : Nat}
    (hv : valid_parameters F Arity) (part_rounds : Nat) :
    get_equivalent_mds_matrix F Arity part_rounds
      = Except.ok (equivalent_mds_matrix_from part_rounds (mds_entries F Arity)) :=
  get_equivalent_mds_matrix_eq part_rounds _ (get_mds_matrix_of_valid hv)

theorem get_equivalent_mds_matrix_of_not_valid [DecidableEq F] {Arity : Nat}
    (hv : ¬ valid_parameters F Arity) (part_rounds : Nat) :
    get_equivalent_mds_matrix F Arity part_rounds = Except.error Failure.no_inverse := by
  unfold get_equivalent_mds_matrix
  rw [get_mds_matrix_eq, if_neg hv]

theorem optimizer_corner [DecidableEq F] {Arity : Nat} (part_rounds : Nat)
    (M : mds_matrix_type F Arity) (k : Nat) (hk : k ≤ part_rounds) :
    (optimizer_state_at part_rounds M k).M_mul 0 0 = M 0 0 := by
  rw [(optimizer_state_at_spec part_rounds M k hk).2.1, mul_blockDiag]
  simp

theorem InvertMatrix_flag [DecidableEq F] {n : Nat} (A inverse : Matrix (Fin n) (Fin n) F) :
    (InvertMatrix A inverse).1 = true ↔ A.det ≠ 0 := by
  rw [InvertMatrix_eq]
  by_cases h : A.det = 0
  · simp [h]
  · simp [h]

theorem vecMul_blockDiag {n : Nat} (s : Fin (n + 1) → F) (X : Matrix (Fin n) (Fin n) F) :
    Matrix.vecMul s (block 1 0 0 X)
      = Fin.cons (s 0) (Matrix.vecMul (fun k => s k.succ) X) := by
  rw [vecMul_block]
  simp

theorem update_vecMul_blockDiag {n : Nat} (y : Fin (n + 1) → F) (X : Matrix (Fin n) (Fin n) F)
    (g : F → F) :
    Function.update (Matrix.vecMul y (block 1 0 0 X)) 0
        (g (Matrix.vecMul y (block 1 0 0 X) 0))
      = Matrix.vecMul (Function.update y 0 (g (y 0))) (block 1 0 0 X) := by
  rw [vecMul_blockDiag, vecMul_blockDiag]
  funext c
  refine Fin.cases ?_ (fun c' => ?_) c
  · simp
  · have h : (fun k : Fin n => Function.update y 0 (g (y 0)) k.succ) = fun k => y k.succ := by
      funext k
      rw [Function.update_noteq (Fin.succ_ne_zero k)]
    rw [Function.update_noteq (Fin.succ_ne_zero c'), h]
    simp

/-- The states of the two paths with a function on word 0 after `k` rounds:
the dense path succeeds, and the state of the optimised path is that of the
dense path times `diag (1, H ^ (part_rounds - k))`. -/
theorem rounds_with_eq [DecidableEq F] {Arity : Nat} (f : Nat → F → F)
    (half_full_rounds part_rounds : Nat)
    (hsz : half_full_rounds + part_rounds < 2 ^ 64)
    (M : mds_matrix_type F Arity) (hM : get_mds_matrix F Arity = Except.ok M)
    (hns : ∀ k : Nat, k < part_rounds →
      ((optimizer_state_at part_rounds M k).M_mul.submatrix Fin.succ Fin.succ).det ≠ 0)
    (s : state_vector_type F Arity) : ∀ k : Nat, k ≤ part_rounds →
    ∃ y : state_vector_type F Arity,
      dense_rounds_with f k s = (Except.ok (), y) ∧
      optimized_rounds_with f half_full_rounds part_rounds k s
        = (Except.ok (), Matrix.vecMul y
            (block 1 0 0 ((M.submatrix Fin.succ Fin.succ) ^ (part_rounds - k))))
  | 0, _ => by
    have ht := get_equivalent_mds_matrix_eq part_rounds M hM
    refine ⟨s, by simp [dense_rounds_with], ?_⟩
    simp only [optimized_rounds_with, List.range_zero, List.foldl_nil,
      product_with_equivalent_mds_matrix_init, ht, not_true_eq_false, if_false]
    rw [(optimizer_state_at_spec part_rounds M part_rounds (le_refl _)).1]
    simp
  | k + 1, hk1 => by
    have hk : k < part_rounds := hk1
    obtain ⟨y, hy, hx⟩ :=
      rounds_with_eq f half_full_rounds part_rounds hsz M hM hns s k (le_of_lt hk)
    have ht := get_equivalent_mds_matrix_eq part_rounds M hM
    have hspec := optimizer_state_at_spec part_rounds M part_rounds (le_refl _)
    have hlt : part_rounds - (k + 1) < part_rounds := by omega
    have hdet : ((M.submatrix Fin.succ Fin.succ) ^ (part_rounds - (k + 1) + 1)).det ≠ 0 := by
      rw [← optimizer_submatrix part_rounds M (part_rounds - (k + 1)) (by omega)]
      exact hns _ hlt
    have e : part_rounds - k = part_rounds - (k + 1) + 1 := by omega
    have hcall := product_with_equivalent_mds_matrix_eq half_full_rounds part_rounds _ ht
      (Matrix.vecMul (Function.update y 0 (f k (y 0)))
        (block 1 0 0 ((M.submatrix Fin.succ Fin.succ) ^ (part_rounds - k))))
      (half_full_rounds + k) (by omega) (by omega) hsz ⟨part_rounds - (k + 1), hlt⟩
      (by simp only []; omega)
    refine ⟨Matrix.vecMul (Function.update y 0 (f k (y 0))) M, ?_, ?_⟩
    · unfold dense_rounds_with at hy ⊢
      rw [List.range_succ, List.foldl_append, hy]
      simp only [List.foldl_cons, List.foldl_nil, and_then_ok, product_with_mds_matrix, hM]
    · unfold optimized_rounds_with at hx ⊢
      rw [List.range_succ, List.foldl_append, hx]
      simp only [List.foldl_cons, List.foldl_nil, and_then_ok]
      rw [update_vecMul_blockDiag y _ (f k), hcall]
      simp only []
      rw [hspec.2.2.1 ⟨part_rounds - (k + 1), hlt⟩ hlt,
        hspec.2.2.2 ⟨part_rounds - (k + 1), hlt⟩ hlt hdet, Matrix.vecMul_vecMul, e,
        blockDiag_mul_sparse_factor M _ hdet, ← Matrix.vecMul_vecMul]

omit [Field F] in
theorem optimizer_sizes_loop_spec (Arity part_rounds : Nat) :
    (optimizer_sizes_loop Arity part_rounds).M_i = (state_words Arity, state_words Arity) ∧
    (optimizer_sizes_loop Arity part_rounds).M_mul = (state_words Arity, state_words Arity) ∧
    (optimizer_sizes_loop Arity part_rounds).M_hat_inverse
      = (state_words Arity - 1, state_words Arity - 1) ∧
    ∀ j : Fin part_rounds,
      (optimizer_sizes_loop Arity part_rounds).w_hat_list j = state_words Arity - 1 ∧
      (optimizer_sizes_loop Arity part_rounds).v_list j = state_words Arity - 1 := by
  have h := foldl_finRange_induction (optimizer_sizes_step Arity)
    (optimizer_sizes_init Arity part_rounds)
    (fun k sz => sz.M_i = (state_words Arity, state_words Arity) ∧
      sz.M_mul = (state_words Arity, state_words Arity) ∧
      sz.M_hat_inverse = (state_words Arity - 1, state_words Arity - 1) ∧
      ∀ j : Fin part_rounds, j.val < k →
        sz.w_hat_list j = state_words Arity - 1 ∧ sz.v_list j = state_words Arity - 1)
    ⟨rfl, rfl, rfl, fun j hj => absurd hj (Nat.not_lt_zero _)⟩
    (by
      intro i sz ⟨h1, h2, h3, h4⟩
      refine ⟨h1, by simp only [optimizer_sizes_step, h1], h3, ?_⟩
      intro j hj
      by_cases hji : j = i
      · subst hji
        simp only [optimizer_sizes_step, Function.update_same, h2, h3, and_self]
      · simp only [optimizer_sizes_step, Function.update_noteq hji]
        exact h4 j (by
          have : j.val ≠ i.val := fun h => hji (Fin.ext h)
          omega))
  exact ⟨h.1, h.2.1, h.2.2.1, fun j => h.2.2.2 j j.isLt⟩

/-- Whenever `get_equivalent_mds_matrix` produces a bundle, the sub-matrix of
every iteration of its loop was invertible, the call of `InvertMatrix` in
that iteration returned true with the inverse, and `w_hat_list[i]` is that
inverse times column 0 of `M_mul`.  The loop has no check of its own: this
holds because `get_mds_matrix`, with a field inversion that fails on zero,
only produces matrices whose sub-matrices are invertible. -/
theorem equivalent_mds_matrix_inversions_succeed [DecidableEq F] {Arity : Nat}
    (part_rounds : Nat) (t : equivalent_mds_matrix_type F Arity part_rounds)
    (ht : get_equivalent_mds_matrix F Arity part_rounds = Except.ok t) :
    ∃ M : mds_matrix_type F Arity, get_mds_matrix F Arity = Except.ok M ∧
      ∀ i : Fin part_rounds,
        ((optimizer_state_at part_rounds M i.val).M_mul.submatrix Fin.succ Fin.succ).det ≠ 0 ∧
        (∀ M_hat_inverse : Matrix (Fin Arity) (Fin Arity) F,
          InvertMatrix ((optimizer_state_at part_rounds M i.val).M_mul.submatrix
              Fin.succ Fin.succ) M_hat_inverse
            = (true, ((optimizer_state_at part_rounds M i.val).M_mul.submatrix
                Fin.succ Fin.succ)⁻¹)) ∧
        t.w_hat_list i
          = Matrix.mulVec
              ((optimizer_state_at part_rounds M i.val).M_mul.submatrix Fin.succ Fin.succ)⁻¹
              (fun r => (optimizer_state_at part_rounds M i.val).M_mul r.succ 0) := by
  by_cases hv : valid_parameters F Arity
  · rw [get_equivalent_mds_matrix_of_valid hv] at ht
    have ht' := (Except.ok.inj ht).symm
    refine ⟨mds_entries F Arity, get_mds_matrix_of_valid hv, fun i => ?_⟩
    have hdet := optimizer_submatrix_det_ne_zero hv part_rounds i.val (le_of_lt i.isLt)
    refine ⟨hdet, fun M_hat_inverse => by rw [InvertMatrix_eq, if_neg hdet], ?_⟩
    have hcol : (fun r : Fin Arity =>
        (optimizer_state_at part_rounds (mds_entries F Arity) i.val).M_mul r.succ 0)
        = fun r => mds_entries F Arity r.succ 0 := by
      funext r
      exact optimizer_column part_rounds _ i.val (le_of_lt i.isLt) r
    rw [ht', hcol]
    simp only [equivalent_mds_matrix_from]
    rw [optimizer_submatrix part_rounds _ i.val (le_of_lt i.isLt)] at hdet ⊢
    exact (optimizer_state_at_spec part_rounds _ part_rounds (le_refl _)).2.2.2 i i.isLt hdet
  · rw [get_equivalent_mds_matrix_of_not_valid hv] at ht
    exact absurd ht (by simp)

/-! ## The claims -/

/-- C1: whenever every sub-matrix that the loop of `get_equivalent_mds_matrix`
inverts is non-singular, `product_with_equivalent_mds_matrix_init` at
`half_full_rounds` followed by `product_with_equivalent_mds_matrix` at the
rounds `half_full_rounds`, ..., `half_full_rounds + part_rounds - 1` gives
the same vector as `part_rounds` calls of `product_with_mds_matrix`, which is
the state times the `part_rounds`-th power of the MDS matrix. -/
theorem optimized_rounds_eq_dense_rounds [DecidableEq F] {Arity : Nat}
    (half_full_rounds part_rounds : Nat)
    (hsz : half_full_rounds + part_rounds < 2 ^ 64)
    (M : mds_matrix_type F Arity) (hM : get_mds_matrix F Arity = Except.ok M)
    (hns : ∀ k : Nat, k < part_rounds →
      ((optimizer_state_at part_rounds M k).M_mul.submatrix Fin.succ Fin.succ).det ≠ 0)
    (s : state_vector_type F Arity) :
    optimized_rounds half_full_rounds part_rounds part_rounds s = dense_rounds part_rounds s ∧
    dense_rounds part_rounds s = (Except.ok (), Matrix.vecMul s (M ^ part_rounds)) := by
  have h1 := optimized_rounds_eq half_full_rounds part_rounds hsz M hM hns s part_rounds
    (le_refl _)
  have h2 := dense_rounds_eq M hM s part_rounds
  rw [Nat.sub_self, pow_zero, ← one_eq_block, Matrix.mul_one] at h1
  exact ⟨h1.trans h2.symm, h2⟩

/-- Witness of C1: the scenario of the spec, `state_words = 3`,
`half_full_rounds = 4`, `part_rounds = 2`, modulus 101, input `[1, 2, 3]`. -/
theorem optimized_rounds_eq_dense_rounds_witness :
    (4 + 2 < 2 ^ 64 ∧
      get_mds_matrix (ZMod 101) 2 = Except.ok (mds_entries (ZMod 101) 2) ∧
      ∀ k : Nat, k < 2 →
        ((optimizer_state_at 2 (mds_entries (ZMod 101) 2) k).M_mul.submatrix
          Fin.succ Fin.succ).det ≠ 0) ∧
    (optimized_rounds 4 2 2 (![1, 2, 3] : state_vector_type (ZMod 101) 2)
        = dense_rounds 2 (![1, 2, 3] : state_vector_type (ZMod 101) 2) ∧
      dense_rounds 2 (![1, 2, 3] : state_vector_type (ZMod 101) 2)
        = (Except.ok (), Matrix.vecMul ![1, 2, 3] (mds_entries (ZMod 101) 2 ^ 2))) :=
  ⟨⟨by norm_num, get_mds_matrix_of_valid valid_101,
      fun k hk => optimizer_submatrix_det_ne_zero valid_101 2 k (le_of_lt hk)⟩,
    optimized_rounds_eq_dense_rounds 4 2 (by norm_num) (mds_entries (ZMod 101) 2)
      (get_mds_matrix_of_valid valid_101)
      (fun k hk => optimizer_submatrix_det_ne_zero valid_101 2 k (le_of_lt hk)) ![1, 2, 3]⟩

/-- C2: in a build without assertions, for `state_words = 3` over the
integers modulo 101 (valid parameters), `get_mds_matrix` returns the matrix
of the inverses of `i + j + 3`, `get_inverse_mds_matrix` returns the matrix
that was never written, and the product of the two is the zero matrix, not
the identity matrix. -/
theorem inverse_mds_matrix_without_assertions :
    valid_parameters (ZMod 101) 2 ∧
    get_mds_matrix (ZMod 101) 2 = Except.ok (mds_entries (ZMod 101) 2) ∧
    get_inverse_mds_matrix (ZMod 101) 2 false = Except.ok 0 ∧
    mds_entries (ZMod 101) 2 * (0 : mds_matrix_type (ZMod 101) 2) = 0 ∧
    mds_entries (ZMod 101) 2 * (0 : mds_matrix_type (ZMod 101) 2) ≠ 1 := by
  refine ⟨valid_101, get_mds_matrix_of_valid valid_101,
    get_inverse_mds_matrix_without_assertions 2, Matrix.mul_zero _, ?_⟩
  rw [Matrix.mul_zero]
  exact zero_ne_one

/-- C3: in a build without assertions, for `state_words = 3` over the
integers modulo 101 (valid parameters), `product_with_mds_matrix` on
`[1, 2, 3]` succeeds and `product_with_inverse_mds_matrix_noalias` from its
result into any other vector leaves `[0, 0, 0]` there, not `[1, 2, 3]`. -/
theorem product_with_inverse_without_assertions :
    valid_parameters (ZMod 101) 2 ∧
    (product_with_mds_matrix (![1, 2, 3] : state_vector_type (ZMod 101) 2)).1 = Except.ok () ∧
    (∀ A_vector_out : state_vector_type (ZMod 101) 2,
      product_with_inverse_mds_matrix_noalias false
          (product_with_mds_matrix (![1, 2, 3] : state_vector_type (ZMod 101) 2)).2
          A_vector_out false
        = (Except.ok (), ![0, 0, 0])) ∧
    (![0, 0, 0] : state_vector_type (ZMod 101) 2) ≠ ![1, 2, 3] := by
  refine ⟨valid_101, ?_, fun A_vector_out => ?_, ?_⟩
  · simp only [product_with_mds_matrix, get_mds_matrix_of_valid valid_101]
  · rw [product_with_inverse_without_assertions_eq]
    refine congrArg (Prod.mk (Except.ok ())) ?_
    funext i
    fin_cases i <;> rfl
  · intro h
    have h0 := congrFun h 0
    simp only [Matrix.cons_val_zero] at h0
    exact zero_ne_one h0

/-- C4: every entry `(i, j)` of the matrix built by `get_mds_matrix`, a
matrix of `state_words` rows and `state_words` columns, is the field inverse
of `i + j + state_words`: that element is non-zero and the entry times it
is one. -/
theorem get_mds_matrix_entry [DecidableEq F] {Arity : Nat}
    (M : Matrix (Fin (state_words Arity)) (Fin (state_words Arity)) F)
    (hM : get_mds_matrix F Arity = Except.ok M) (i j : Fin (state_words Arity)) :
    M i j = (((i.val + j.val + state_words Arity : Nat) : F))⁻¹ ∧
    ((i.val + j.val + state_words Arity : Nat) : F) ≠ 0 ∧
    M i j * ((i.val + j.val + state_words Arity : Nat) : F) = 1 := by
  obtain ⟨hv, rfl⟩ := valid_of_get_mds_matrix M hM
  have h0 : ((i.val + j.val + state_words Arity : Nat) : F) ≠ 0 := by
    have := hv i j
    rwa [← Nat.add_assoc] at this
  have h1 : mds_entries F Arity i j = (((i.val + j.val + state_words Arity : Nat) : F))⁻¹ := by
    simp only [mds_entries, Nat.add_assoc]
  exact ⟨h1, h0, by rw [h1, inv_mul_cancel₀ h0]⟩

/-- Witness of C4: entry `(1, 2)` for `state_words = 3` over the integers
modulo 101. -/
theorem get_mds_matrix_entry_witness :
    get_mds_matrix (ZMod 101) 2 = Except.ok (mds_entries (ZMod 101) 2) ∧
    (mds_entries (ZMod 101) 2 1 2 = (((1 + 2 + state_words 2 : Nat) : ZMod 101))⁻¹ ∧
      ((1 + 2 + state_words 2 : Nat) : ZMod 101) ≠ 0 ∧
      mds_entries (ZMod 101) 2 1 2 * ((1 + 2 + state_words 2 : Nat) : ZMod 101) = 1) :=
  ⟨get_mds_matrix_of_valid valid_101,
    get_mds_matrix_entry (mds_entries (ZMod 101) 2) (get_mds_matrix_of_valid valid_101) 1 2⟩

/-- C5: at a round of the span, with `b = part_rounds - (round_number -
half_full_rounds) - 1`, `w = w_hat_list[b]` and `v = v_list[b]`,
`product_with_equivalent_mds_matrix` succeeds and leaves
`M_0_0 * state[0] + sum_k w[k-1] * state[k]` in word 0 and
`state[0] * v[i-1] + state[i]` in word `i >= 1`, every `state[.]` being the
value before the call. -/
theorem product_with_equivalent_mds_matrix_words [DecidableEq F] {Arity : Nat}
    (half_full_rounds part_rounds : Nat) (t : equivalent_mds_matrix_type F Arity part_rounds)
    (ht : get_equivalent_mds_matrix F Arity part_rounds = Except.ok t)
    (state : state_vector_type F Arity) (round_number : Nat)
    (h1 : half_full_rounds ≤ round_number)
    (h2 : round_number < half_full_rounds + part_rounds)
    (hsz : half_full_rounds + part_rounds < 2 ^ 64)
    (b : Fin part_rounds) (hb : b.val = part_rounds - (round_number - half_full_rounds) - 1) :
    matrix_number_base half_full_rounds part_rounds round_number = b.val ∧
    ∃ new_state : state_vector_type F Arity,
      product_with_equivalent_mds_matrix half_full_rounds part_rounds state round_number
        = (Except.ok (), new_state) ∧
      new_state 0 = t.M_0_0 * state 0 + ∑ k : Fin Arity, t.w_hat_list b k * state k.succ ∧
      ∀ i : Fin Arity, new_state i.succ = state 0 * t.v_list b i + state i.succ := by
  refine ⟨by rw [hb]; exact matrix_number_base_eq _ _ _ h1 h2 hsz, _,
    product_with_equivalent_mds_matrix_eq half_full_rounds part_rounds t ht state round_number
      h1 h2 hsz b hb, ?_, ?_⟩
  · rw [sparse_factor, vecMul_block]
    simp only [Fin.cons_zero, Matrix.dotProduct]
    rw [mul_comm (state 0)]
    congr 1
    exact Finset.sum_congr rfl (fun k _ => mul_comm _ _)
  · intro i
    rw [sparse_factor, vecMul_block]
    simp [Matrix.vecMul_one]

/-- Witness of C5: round 5 of the scenario `state_words = 3`,
`half_full_rounds = 4`, `part_rounds = 2` over the integers modulo 101. -/
theorem product_with_equivalent_mds_matrix_words_witness :
    (get_equivalent_mds_matrix (ZMod 101) 2 2
        = Except.ok (equivalent_mds_matrix_from 2 (mds_entries (ZMod 101) 2)) ∧
      4 ≤ 5 ∧ 5 < 4 + 2 ∧ 4 + 2 < 2 ^ 64 ∧ (0 : Fin 2).val = 2 - (5 - 4) - 1) ∧
    (matrix_number_base 4 2 5 = (0 : Fin 2).val ∧
      ∃ new_state : state_vector_type (ZMod 101) 2,
        product_with_equivalent_mds_matrix 4 2 ![1, 2, 3] 5 = (Except.ok (), new_state) ∧
        new_state 0
          = (equivalent_mds_matrix_from 2 (mds_entries (ZMod 101) 2)).M_0_0
              * (![1, 2, 3] : state_vector_type (ZMod 101) 2) 0
            + ∑ k : Fin 2,
                (equivalent_mds_matrix_from 2 (mds_entries (ZMod 101) 2)).w_hat_list 0 k
                  * (![1, 2, 3] : state_vector_type (ZMod 101) 2) k.succ ∧
        ∀ i : Fin 2, new_state i.succ
          = (![1, 2, 3] : state_vector_type (ZMod 101) 2) 0
              * (equivalent_mds_matrix_from 2 (mds_entries (ZMod 101) 2)).v_list 0 i
            + (![1, 2, 3] : state_vector_type (ZMod 101) 2) i.succ) :=
  ⟨⟨get_equivalent_mds_matrix_of_valid valid_101 2, by decide, by decide, by norm_num, rfl⟩,
    product_with_equivalent_mds_matrix_words 4 2 _
      (get_equivalent_mds_matrix_of_valid valid_101 2) ![1, 2, 3] 5 (by decide) (by decide)
      (by norm_num) 0 rfl⟩

/-- C6: `InvertMatrix (A, inverse)` returns false exactly when `A` is singular,
which is exactly when an elimination step found no non-zero pivot, and then
`inverse` is unchanged; when it returns true, `inverse` is a two-sided inverse
of `A`. -/
theorem InvertMatrix_correct [DecidableEq F] {n : Nat} (A inverse : Matrix (Fin n) (Fin n) F) :
    ((InvertMatrix A inverse).1 = false ↔ A.det = 0) ∧
    ((InvertMatrix A inverse).1 = false ↔ (lu_factorize A).singular ≠ 0) ∧
    ((InvertMatrix A inverse).1 = false → (InvertMatrix A inverse).2 = inverse) ∧
    ((InvertMatrix A inverse).1 = true →
      A * (InvertMatrix A inverse).2 = 1 ∧ (InvertMatrix A inverse).2 * A = 1) := by
  have hs := lu_factorize_singular A
  rw [InvertMatrix_eq]
  by_cases hA : A.det = 0
  · have h1 : (lu_factorize A).singular ≠ 0 := fun h => hs.mp h hA
    simp [hA, h1]
  · have h1 : (lu_factorize A).singular = 0 := hs.mpr hA
    have hu : IsUnit A.det := isUnit_iff_ne_zero.mpr hA
    simp [hA, h1, Matrix.mul_nonsing_inv _ hu, Matrix.nonsing_inv_mul _ hu]

/-- C8: `product_with_equivalent_mds_matrix` ends in an assertion failure if
and only if `round_number` is outside `[half_full_rounds, half_full_rounds +
part_rounds)`, `product_with_equivalent_mds_matrix_init` does if and only if
`round_number` is not `half_full_rounds`, and in both cases the state is the
one that was passed in. -/
theorem round_number_rejected_iff [DecidableEq F] {Arity : Nat}
    (half_full_rounds part_rounds : Nat)
    (hsz : half_full_rounds + part_rounds < 2 ^ 64)
    (state : state_vector_type F Arity) (round_number : Nat) :
    ((∃ msg : String,
        (product_with_equivalent_mds_matrix half_full_rounds part_rounds state round_number).1
          = Except.error (Failure.assertion msg)) ↔
      ¬ (half_full_rounds ≤ round_number ∧ round_number < half_full_rounds + part_rounds)) ∧
    (¬ (half_full_rounds ≤ round_number ∧ round_number < half_full_rounds + part_rounds) →
      product_with_equivalent_mds_matrix half_full_rounds part_rounds state round_number
        = (Except.error (Failure.assertion "wrong using: product_with_equivalent_mds_matrix"),
            state)) ∧
    ((∃ msg : String,
        (product_with_equivalent_mds_matrix_init half_full_rounds part_rounds state
          round_number).1 = Except.error (Failure.assertion msg)) ↔
      round_number ≠ half_full_rounds) ∧
    (round_number ≠ half_full_rounds →
      product_with_equivalent_mds_matrix_init half_full_rounds part_rounds state round_number
        = (Except.error
            (Failure.assertion "wrong using: product_with_equivalent_mds_matrix_init"),
            state)) := by
  have hout : ¬ (half_full_rounds ≤ round_number ∧
      round_number < half_full_rounds + part_rounds) →
      product_with_equivalent_mds_matrix half_full_rounds part_rounds state round_number
        = (Except.error (Failure.assertion "wrong using: product_with_equivalent_mds_matrix"),
            state) := by
    intro h
    unfold product_with_equivalent_mds_matrix
    rw [size_t_add_eq _ _ hsz, if_pos h]
  have hinit : round_number ≠ half_full_rounds →
      product_with_equivalent_mds_matrix_init half_full_rounds part_rounds state round_number
        = (Except.error
            (Failure.assertion "wrong using: product_with_equivalent_mds_matrix_init"),
            state) := by
    intro h
    unfold product_with_equivalent_mds_matrix_init
    rw [if_pos h]
  refine ⟨⟨?_, fun h => ⟨_, by rw [hout h]⟩⟩, hout, ⟨?_, fun h => ⟨_, by rw [hinit h]⟩⟩, hinit⟩
  · rintro ⟨msg, hmsg⟩ hin
    by_cases hv : valid_parameters F Arity
    · have hlt : part_rounds - (round_number - half_full_rounds) - 1 < part_rounds := by omega
      rw [product_with_equivalent_mds_matrix_eq half_full_rounds part_rounds _
        (get_equivalent_mds_matrix_of_valid hv part_rounds) state round_number hin.1 hin.2 hsz
        ⟨_, hlt⟩ rfl] at hmsg
      exact absurd hmsg (by simp)
    · have hassert : round_number ≥ half_full_rounds ∧
          round_number < size_t_add half_full_rounds part_rounds := by
        rw [size_t_add_eq _ _ hsz]
        exact hin
      unfold product_with_equivalent_mds_matrix at hmsg
      rw [if_neg (not_not.mpr hassert)] at hmsg
      simp only [get_v, get_equivalent_mds_matrix_of_not_valid hv] at hmsg
      exact absurd hmsg (by simp)
  · rintro ⟨msg, hmsg⟩ hr
    unfold product_with_equivalent_mds_matrix_init at hmsg
    rw [if_neg (not_not.mpr hr)] at hmsg
    by_cases hv : valid_parameters F Arity
    · simp only [get_equivalent_mds_matrix_of_valid hv] at hmsg
      exact absurd hmsg (by simp)
    · simp only [get_equivalent_mds_matrix_of_not_valid hv] at hmsg
      exact absurd hmsg (by simp)

/-- Witness of C8: the scenario `half_full_rounds = 4`, `part_rounds = 2`,
round 6, over the integers modulo 101. -/
theorem round_number_rejected_iff_witness :
    4 + 2 < 2 ^ 64 ∧
    (((∃ msg : String,
        (product_with_equivalent_mds_matrix 4 2
          (![1, 2, 3] : state_vector_type (ZMod 101) 2) 6).1
          = Except.error (Failure.assertion msg)) ↔ ¬ (4 ≤ 6 ∧ 6 < 4 + 2)) ∧
    (¬ (4 ≤ 6 ∧ 6 < 4 + 2) →
      product_with_equivalent_mds_matrix 4 2 (![1, 2, 3] : state_vector_type (ZMod 101) 2) 6
        = (Except.error (Failure.assertion "wrong using: product_with_equivalent_mds_matrix"),
            ![1, 2, 3])) ∧
    ((∃ msg : String,
        (product_with_equivalent_mds_matrix_init 4 2
          (![1, 2, 3] : state_vector_type (ZMod 101) 2) 6).1
          = Except.error (Failure.assertion msg)) ↔ 6 ≠ 4) ∧
    (6 ≠ 4 →
      product_with_equivalent_mds_matrix_init 4 2
          (![1, 2, 3] : state_vector_type (ZMod 101) 2) 6
        = (Except.error
            (Failure.assertion "wrong using: product_with_equivalent_mds_matrix_init"),
            ![1, 2, 3]))) :=
  ⟨by norm_num, round_number_rejected_iff 4 2 (by norm_num) ![1, 2, 3] 6⟩

/-- C9: `get_mds_matrix` fails, with no matrix produced, if and only if some
`i + j + state_words` with `i, j < state_words` is zero in the field; otherwise
it produces a matrix. -/
theorem get_mds_matrix_fails_iff [DecidableEq F] (Arity : Nat) :
    ((∃ e : Failure, get_mds_matrix F Arity = Except.error e) ↔
      ∃ i j : Fin (state_words Arity), ((i.val + j.val + state_words Arity : Nat) : F) = 0) ∧
    ((∃ i j : Fin (state_words Arity), ((i.val + j.val + state_words Arity : Nat) : F) = 0) →
      ∀ M : mds_matrix_type F Arity, get_mds_matrix F Arity ≠ Except.ok M) ∧
    ((¬ ∃ i j : Fin (state_words Arity), ((i.val + j.val + state_words Arity : Nat) : F) = 0) →
      ∃ M : mds_matrix_type F Arity, get_mds_matrix F Arity = Except.ok M) := by
  have hiff : (∃ i j : Fin (state_words Arity),
      ((i.val + j.val + state_words Arity : Nat) : F) = 0) ↔ ¬ valid_parameters F Arity := by
    unfold valid_parameters
    push_neg
    simp only [Nat.add_assoc]
  rw [hiff, get_mds_matrix_eq]
  by_cases hv : valid_parameters F Arity
  · simp [hv]
  · simp [hv]

/-- C10: in an iteration `k` of the loop of `get_equivalent_mds_matrix` whose
sub-matrix is invertible, `M_mul` at the start of the iteration is the product
of `M_i` after the iteration (the identity with its rows and columns from 1 on
replaced by those of `M_mul`) and the sparse matrix with corner `M_0_0`, rest
of row 0 `v_list[k]`, rest of column 0 `w_hat_list[k]` and the identity
elsewhere; and the sparse update of `product_with_equivalent_mds_matrix` with
index `k`, applied to a state times that `M_i`, is the state times `M_mul`. -/
theorem optimizer_factorisation [DecidableEq F] {Arity : Nat}
    (half_full_rounds part_rounds : Nat) (hsz : half_full_rounds + part_rounds < 2 ^ 64)
    (M : mds_matrix_type F Arity) (hM : get_mds_matrix F Arity = Except.ok M)
    (t : equivalent_mds_matrix_type F Arity part_rounds)
    (ht : get_equivalent_mds_matrix F Arity part_rounds = Except.ok t)
    (k : Fin part_rounds)
    (hinv : ((optimizer_state_at part_rounds M k.val).M_mul.submatrix
      Fin.succ Fin.succ).det ≠ 0) :
    (optimizer_step M (optimizer_state_at part_rounds M k.val) k).M_i
        = assign_subrange 1 (optimizer_state_at part_rounds M k.val).M_mul ∧
    (optimizer_state_at part_rounds M k.val).M_mul
        = (optimizer_step M (optimizer_state_at part_rounds M k.val) k).M_i
            * sparse_factor t.M_0_0 (t.w_hat_list k) (t.v_list k) ∧
    matrix_number_base half_full_rounds part_rounds
        (half_full_rounds + (part_rounds - 1 - k.val)) = k.val ∧
    ∀ s : state_vector_type F Arity,
      product_with_equivalent_mds_matrix half_full_rounds part_rounds
          (Matrix.vecMul s (optimizer_step M (optimizer_state_at part_rounds M k.val) k).M_i)
          (half_full_rounds + (part_rounds - 1 - k.val))
        = (Except.ok (), Matrix.vecMul s (optimizer_state_at part_rounds M k.val).M_mul) := by
  have hk := k.isLt
  have hspec := optimizer_state_at_spec part_rounds M part_rounds (le_refl _)
  have hspeck := optimizer_state_at_spec part_rounds M k.val (le_of_lt hk)
  have hspeck1 := optimizer_state_at_spec part_rounds M (k.val + 1) hk
  have hdet : ((M.submatrix Fin.succ Fin.succ) ^ (k.val + 1)).det ≠ 0 := by
    rw [← optimizer_submatrix part_rounds M k.val (le_of_lt hk)]
    exact hinv
  have hstep : optimizer_step M (optimizer_state_at part_rounds M k.val) k
      = optimizer_state_at part_rounds M (k.val + 1) := by
    simp [optimizer_state_at, hk]
  have ht' : t = equivalent_mds_matrix_from part_rounds M := by
    rw [get_equivalent_mds_matrix_eq part_rounds M hM] at ht
    exact (Except.ok.inj ht).symm
  have hfac : (optimizer_state_at part_rounds M k.val).M_mul
      = (optimizer_step M (optimizer_state_at part_rounds M k.val) k).M_i
          * sparse_factor t.M_0_0 (t.w_hat_list k) (t.v_list k) := by
    rw [hstep, hspeck1.1, hspeck.2.1, ht']
    simp only [equivalent_mds_matrix_from]
    rw [hspec.2.2.1 k hk, hspec.2.2.2 k hk hdet, blockDiag_mul_sparse_factor M k.val hdet]
  have hidx : part_rounds - (half_full_rounds + (part_rounds - 1 - k.val) - half_full_rounds) - 1
      = k.val := by omega
  refine ⟨?_, hfac, ?_, ?_⟩
  · simp only [optimizer_step]
    rw [hspeck.1]
    ext r c
    refine Fin.cases ?_ (fun r' => ?_) r <;> refine Fin.cases ?_ (fun c' => ?_) c <;>
      simp [assign_subrange, Fin.succ_ne_zero, Matrix.one_apply, (Fin.succ_ne_zero _).symm]
  · rw [matrix_number_base_eq _ _ _ (by omega) (by omega) hsz]
    exact hidx
  · intro s
    rw [product_with_equivalent_mds_matrix_eq half_full_rounds part_rounds t ht _
      (half_full_rounds + (part_rounds - 1 - k.val)) (by omega) (by omega) hsz k hidx.symm,
      Matrix.vecMul_vecMul, ← hfac]

/-- Witness of C10: iteration 1 of the scenario `state_words = 3`,
`half_full_rounds = 4`, `part_rounds = 2` over the integers modulo 101. -/
theorem optimizer_factorisation_witness :
    (4 + 2 < 2 ^ 64 ∧
      get_mds_matrix (ZMod 101) 2 = Except.ok (mds_entries (ZMod 101) 2) ∧
      get_equivalent_mds_matrix (ZMod 101) 2 2
        = Except.ok (equivalent_mds_matrix_from 2 (mds_entries (ZMod 101) 2)) ∧
      ((optimizer_state_at 2 (mds_entries (ZMod 101) 2) (1 : Fin 2).val).M_mul.submatrix
        Fin.succ Fin.succ).det ≠ 0) ∧
    ((optimizer_step (mds_entries (ZMod 101) 2)
          (optimizer_state_at 2 (mds_entries (ZMod 101) 2) (1 : Fin 2).val) 1).M_i
        = assign_subrange 1 (optimizer_state_at 2 (mds_entries (ZMod 101) 2) (1 : Fin 2).val).M_mul ∧
      (optimizer_state_at 2 (mds_entries (ZMod 101) 2) (1 : Fin 2).val).M_mul
        = (optimizer_step (mds_entries (ZMod 101) 2)
              (optimizer_state_at 2 (mds_entries (ZMod 101) 2) (1 : Fin 2).val) 1).M_i
            * sparse_factor (equivalent_mds_matrix_from 2 (mds_entries (ZMod 101) 2)).M_0_0
                ((equivalent_mds_matrix_from 2 (mds_entries (ZMod 101) 2)).w_hat_list 1)
                ((equivalent_mds_matrix_from 2 (mds_entries (ZMod 101) 2)).v_list 1) ∧
      matrix_number_base 4 2 (4 + (2 - 1 - (1 : Fin 2).val)) = (1 : Fin 2).val ∧
      ∀ s : state_vector_type (ZMod 101) 2,
        product_with_equivalent_mds_matrix 4 2
            (Matrix.vecMul s (optimizer_step (mds_entries (ZMod 101) 2)
              (optimizer_state_at 2 (mds_entries (ZMod 101) 2) (1 : Fin 2).val) 1).M_i)
            (4 + (2 - 1 - (1 : Fin 2).val))
          = (Except.ok (), Matrix.vecMul s
              (optimizer_state_at 2 (mds_entries (ZMod 101) 2) (1 : Fin 2).val).M_mul)) :=
  ⟨⟨by norm_num, get_mds_matrix_of_valid valid_101,
      get_equivalent_mds_matrix_of_valid valid_101 2,
      optimizer_submatrix_det_ne_zero valid_101 2 1 (by decide)⟩,
    optimizer_factorisation 4 2 (by norm_num) (mds_entries (ZMod 101) 2)
      (get_mds_matrix_of_valid valid_101) _ (get_equivalent_mds_matrix_of_valid valid_101 2) 1
      (optimizer_submatrix_det_ne_zero valid_101 2 1 (by decide))⟩

/-- C11: `get_M_0_0` returns the `(0, 0)` entry of the MDS matrix, the field
inverse of `state_words`; the `(0, 0)` entry of `M_mul` has that value when
each iteration of the loop of `get_equivalent_mds_matrix` starts and when the
loop ends; and for `state_words >= 2` it differs from the `(0, 0)` entry of
the final `M_i`, which is one. -/
theorem get_M_0_0_is_corner [DecidableEq F] {Arity : Nat} (part_rounds : Nat)
    (M : mds_matrix_type F Arity) (hM : get_mds_matrix F Arity = Except.ok M)
    (h2 : 2 ≤ state_words Arity) :
    get_M_0_0 F Arity part_rounds = Except.ok (M 0 0) ∧
    M 0 0 = ((state_words Arity : Nat) : F)⁻¹ ∧
    (∀ k : Nat, k ≤ part_rounds → (optimizer_state_at part_rounds M k).M_mul 0 0 = M 0 0) ∧
    ∀ t : equivalent_mds_matrix_type F Arity part_rounds,
      get_equivalent_mds_matrix F Arity part_rounds = Except.ok t →
        t.M_0_0 = M 0 0 ∧ t.M_i 0 0 = 1 ∧ t.M_0_0 ≠ t.M_i 0 0 := by
  obtain ⟨hv, rfl⟩ := valid_of_get_mds_matrix M hM
  have ht := get_equivalent_mds_matrix_of_valid hv part_rounds
  have h00 : mds_entries F Arity 0 0 = ((state_words Arity : Nat) : F)⁻¹ := by
    simp [mds_entries]
  have hMi : (optimizer_state_at part_rounds (mds_entries F Arity) part_rounds).M_i 0 0 = 1 := by
    rw [(optimizer_state_at_spec part_rounds _ part_rounds (le_refl _)).1]
    simp
  have hne : mds_entries F Arity 0 0 ≠ 1 := by
    rw [h00]
    intro h
    have h1 : ((state_words Arity : Nat) : F) = 1 := by
      rw [← inv_inv ((state_words Arity : Nat) : F), h, inv_one]
    have h3 : ((Arity : Nat) : F) = 0 := by
      simp only [state_words, Nat.cast_add, Nat.cast_one] at h1
      simpa using h1
    exact cast_ne_zero_of_valid hv Arity (by simp only [state_words] at h2; omega) (le_refl _) h3
  refine ⟨?_, h00, fun k hk => optimizer_corner part_rounds _ k hk, ?_⟩
  · simp only [get_M_0_0, ht, equivalent_mds_matrix_from]
  · intro t ht'
    rw [ht] at ht'
    have e := (Except.ok.inj ht').symm
    subst e
    exact ⟨rfl, hMi, fun h => hne (h.trans hMi)⟩

/-- Witness of C11: `state_words = 3`, `part_rounds = 2` over the integers
modulo 101. -/
theorem get_M_0_0_is_corner_witness :
    (get_mds_matrix (ZMod 101) 2 = Except.ok (mds_entries (ZMod 101) 2) ∧
      2 ≤ state_words 2) ∧
    (get_M_0_0 (ZMod 101) 2 2 = Except.ok (mds_entries (ZMod 101) 2 0 0) ∧
      mds_entries (ZMod 101) 2 0 0 = ((state_words 2 : Nat) : ZMod 101)⁻¹ ∧
      (∀ k : Nat, k ≤ 2 →
        (optimizer_state_at 2 (mds_entries (ZMod 101) 2) k).M_mul 0 0
          = mds_entries (ZMod 101) 2 0 0) ∧
      ∀ t : equivalent_mds_matrix_type (ZMod 101) 2 2,
        get_equivalent_mds_matrix (ZMod 101) 2 2 = Except.ok t →
          t.M_0_0 = mds_entries (ZMod 101) 2 0 0 ∧ t.M_i 0 0 = 1 ∧ t.M_0_0 ≠ t.M_i 0 0) :=
  ⟨⟨get_mds_matrix_of_valid valid_101, by decide⟩,
    get_M_0_0_is_corner 2 (mds_entries (ZMod 101) 2) (get_mds_matrix_of_valid valid_101)
      (by decide)⟩

/-- C12: when an iteration of the loop of `get_equivalent_mds_matrix` starts
or the loop ends, and in the bundle, row 0 of `M_i` is `[1, 0, ..., 0]` and so
is column 0; so `product_with_equivalent_mds_matrix_init` leaves word 0 of the
state as it was, and the new words from 1 on are the same for two states that
differ in word 0 only. -/
theorem M_i_first_row_and_column [DecidableEq F] {Arity : Nat}
    (half_full_rounds part_rounds : Nat)
    (M : mds_matrix_type F Arity) (hM : get_mds_matrix F Arity = Except.ok M) :
    (∀ k : Nat, k ≤ part_rounds →
      (optimizer_state_at part_rounds M k).M_i 0 0 = 1 ∧
      (∀ c : Fin Arity, (optimizer_state_at part_rounds M k).M_i 0 c.succ = 0) ∧
      (∀ r : Fin Arity, (optimizer_state_at part_rounds M k).M_i r.succ 0 = 0)) ∧
    (∀ t : equivalent_mds_matrix_type F Arity part_rounds,
      get_equivalent_mds_matrix F Arity part_rounds = Except.ok t →
        t.M_i 0 0 = 1 ∧ (∀ c : Fin Arity, t.M_i 0 c.succ = 0) ∧
        (∀ r : Fin Arity, t.M_i r.succ 0 = 0)) ∧
    (∀ s : state_vector_type F Arity,
      (product_with_equivalent_mds_matrix_init half_full_rounds part_rounds s
          half_full_rounds).1 = Except.ok () ∧
      (product_with_equivalent_mds_matrix_init half_full_rounds part_rounds s
          half_full_rounds).2 0 = s 0) ∧
    (∀ s s' : state_vector_type F Arity, (∀ i : Fin Arity, s i.succ = s' i.succ) →
      ∀ i : Fin Arity,
        (product_with_equivalent_mds_matrix_init half_full_rounds part_rounds s
            half_full_rounds).2 i.succ
          = (product_with_equivalent_mds_matrix_init half_full_rounds part_rounds s'
            half_full_rounds).2 i.succ) := by
  have hrow : ∀ k : Nat, k ≤ part_rounds →
      (optimizer_state_at part_rounds M k).M_i 0 0 = 1 ∧
      (∀ c : Fin Arity, (optimizer_state_at part_rounds M k).M_i 0 c.succ = 0) ∧
      (∀ r : Fin Arity, (optimizer_state_at part_rounds M k).M_i r.succ 0 = 0) := by
    intro k hk
    rw [(optimizer_state_at_spec part_rounds M k hk).1]
    simp
  have ht := get_equivalent_mds_matrix_eq part_rounds M hM
  have hinit : ∀ s : state_vector_type F Arity,
      product_with_equivalent_mds_matrix_init half_full_rounds part_rounds s half_full_rounds
        = (Except.ok (), Fin.cons (s 0) (Matrix.vecMul (fun k => s k.succ)
            ((M.submatrix Fin.succ Fin.succ) ^ part_rounds))) := by
    intro s
    simp only [product_with_equivalent_mds_matrix_init, ht, not_true_eq_false, if_false]
    rw [(optimizer_state_at_spec part_rounds M part_rounds (le_refl _)).1, vecMul_blockDiag]
  refine ⟨hrow, ?_, ?_, ?_⟩
  · intro t ht'
    rw [ht] at ht'
    have e := (Except.ok.inj ht').symm
    subst e
    exact hrow part_rounds (le_refl _)
  · intro s
    rw [hinit s]
    exact ⟨rfl, by simp⟩
  · intro s s' hss i
    rw [hinit s, hinit s']
    have h : (fun k : Fin Arity => s k.succ) = fun k => s' k.succ := funext hss
    simp only [Fin.cons_succ, h]

/-- Witness of C12: the scenario `state_words = 3`, `half_full_rounds = 4`,
`part_rounds = 2` over the integers modulo 101. -/
theorem M_i_first_row_and_column_witness :
    get_mds_matrix (ZMod 101) 2 = Except.ok (mds_entries (ZMod 101) 2) ∧
    ((∀ k : Nat, k ≤ 2 →
      (optimizer_state_at 2 (mds_entries (ZMod 101) 2) k).M_i 0 0 = 1 ∧
      (∀ c : Fin 2, (optimizer_state_at 2 (mds_entries (ZMod 101) 2) k).M_i 0 c.succ = 0) ∧
      (∀ r : Fin 2, (optimizer_state_at 2 (mds_entries (ZMod 101) 2) k).M_i r.succ 0 = 0)) ∧
    (∀ t : equivalent_mds_matrix_type (ZMod 101) 2 2,
      get_equivalent_mds_matrix (ZMod 101) 2 2 = Except.ok t →
        t.M_i 0 0 = 1 ∧ (∀ c : Fin 2, t.M_i 0 c.succ = 0) ∧
        (∀ r : Fin 2, t.M_i r.succ 0 = 0)) ∧
    (∀ s : state_vector_type (ZMod 101) 2,
      (product_with_equivalent_mds_matrix_init 4 2 s 4).1 = Except.ok () ∧
      (product_with_equivalent_mds_matrix_init 4 2 s 4).2 0 = s 0) ∧
    (∀ s s' : state_vector_type (ZMod 101) 2, (∀ i : Fin 2, s i.succ = s' i.succ) →
      ∀ i : Fin 2,
        (product_with_equivalent_mds_matrix_init 4 2 s 4).2 i.succ
          = (product_with_equivalent_mds_matrix_init 4 2 s' 4).2 i.succ)) :=
  ⟨get_mds_matrix_of_valid valid_101,
    M_i_first_row_and_column 4 2 (mds_entries (ZMod 101) 2)
      (get_mds_matrix_of_valid valid_101)⟩

/-- C13: for a round number of the span `[half_full_rounds, half_full_rounds +
part_rounds)` no subtraction in the computation of `matrix_number_base` wraps
around (each has the value of the subtraction of integers), the index is below
`part_rounds`, and the map from round numbers to indices reverses the order
and is a bijection onto `0 .. part_rounds - 1`; the first round of the span
has index `part_rounds - 1` and the last one index `0`. -/
theorem matrix_number_base_no_wrap (half_full_rounds part_rounds : Nat)
    (hsz : half_full_rounds + part_rounds < 2 ^ 64) :
    (∀ round_number : Nat, half_full_rounds ≤ round_number →
      round_number < half_full_rounds + part_rounds →
      ((size_t_sub round_number half_full_rounds : Nat) : Int)
        = (round_number : Int) - (half_full_rounds : Int) ∧
      ((size_t_sub part_rounds (size_t_sub round_number half_full_rounds) : Nat) : Int)
        = (part_rounds : Int) - ((round_number : Int) - (half_full_rounds : Int)) ∧
      ((matrix_number_base half_full_rounds part_rounds round_number : Nat) : Int)
        = (part_rounds : Int) - ((round_number : Int) - (half_full_rounds : Int)) - 1 ∧
      matrix_number_base half_full_rounds part_rounds round_number < part_rounds) ∧
    StrictAntiOn (matrix_number_base half_full_rounds part_rounds)
      (Set.Ico half_full_rounds (half_full_rounds + part_rounds)) ∧
    Set.BijOn (matrix_number_base half_full_rounds part_rounds)
      (Set.Ico half_full_rounds (half_full_rounds + part_rounds)) (Set.Iio part_rounds) ∧
    (1 ≤ part_rounds →
      matrix_number_base half_full_rounds part_rounds half_full_rounds = part_rounds - 1 ∧
      matrix_number_base half_full_rounds part_rounds (half_full_rounds + part_rounds - 1)
        = 0) := by
  have hmb : ∀ r : Nat, half_full_rounds ≤ r → r < half_full_rounds + part_rounds →
      matrix_number_base half_full_rounds part_rounds r
        = part_rounds - (r - half_full_rounds) - 1 :=
    fun r h1 h2 => matrix_number_base_eq _ _ r h1 h2 hsz
  refine ⟨?_, ?_, ⟨?_, ?_, ?_⟩, ?_⟩
  · intro r h1 h2
    have e1 : size_t_sub r half_full_rounds = r - half_full_rounds :=
      size_t_sub_eq _ _ h1 (by omega)
    have e2 : size_t_sub part_rounds (r - half_full_rounds)
        = part_rounds - (r - half_full_rounds) :=
      size_t_sub_eq _ _ (by omega) (by omega)
    rw [e1, e2, hmb r h1 h2]
    refine ⟨by omega, by omega, by omega, by omega⟩
  · intro a ha b hb hab
    simp only [Set.mem_Ico] at ha hb
    rw [hmb a ha.1 ha.2, hmb b hb.1 hb.2]
    omega
  · intro a ha
    simp only [Set.mem_Ico] at ha
    simp only [Set.mem_Iio]
    rw [hmb a ha.1 ha.2]
    omega
  · intro a ha b hb hab
    simp only [Set.mem_Ico] at ha hb
    rw [hmb a ha.1 ha.2, hmb b hb.1 hb.2] at hab
    omega
  · intro b hb
    simp only [Set.mem_Iio] at hb
    refine ⟨half_full_rounds + (part_rounds - 1 - b), ?_, ?_⟩
    · simp only [Set.mem_Ico]
      omega
    · rw [hmb _ (by omega) (by omega)]
      omega
  · intro hpr
    rw [hmb _ (le_refl _) (by omega), hmb _ (by omega) (by omega)]
    omega

/-- Witness of C13: `half_full_rounds = 4`, `part_rounds = 2`. -/
theorem matrix_number_base_no_wrap_witness :
    4 + 2 < 2 ^ 64 ∧
    ((∀ round_number : Nat, 4 ≤ round_number → round_number < 4 + 2 →
      ((size_t_sub round_number 4 : Nat) : Int) = (round_number : Int) - ((4 : Nat) : Int) ∧
      ((size_t_sub 2 (size_t_sub round_number 4) : Nat) : Int)
        = ((2 : Nat) : Int) - ((round_number : Int) - ((4 : Nat) : Int)) ∧
      ((matrix_number_base 4 2 round_number : Nat) : Int)
        = ((2 : Nat) : Int) - ((round_number : Int) - ((4 : Nat) : Int)) - 1 ∧
      matrix_number_base 4 2 round_number < 2) ∧
    StrictAntiOn (matrix_number_base 4 2) (Set.Ico 4 (4 + 2)) ∧
    Set.BijOn (matrix_number_base 4 2) (Set.Ico 4 (4 + 2)) (Set.Iio 2) ∧
    (1 ≤ 2 → matrix_number_base 4 2 4 = 2 - 1 ∧ matrix_number_base 4 2 (4 + 2 - 1) = 0)) :=
  ⟨by norm_num, matrix_number_base_no_wrap 4 2 (by norm_num)⟩

/-- C14: when the loop of `get_equivalent_mds_matrix` ends, `M_i` has
`state_words` rows and columns and each of the two arrays holds `part_rounds`
vectors of length `state_words - 1`; so in `product_with_equivalent_mds_matrix`
the index `i - 1` is within `v` for `1 <= i < state_words`, `w_hat` has as many
elements as the positions `1 .. state_words - 1` of the temporary vector, and
at a round of the span the index into the arrays is within their extent. -/
theorem bundle_shapes [DecidableEq F] (Arity half_full_rounds part_rounds : Nat)
    (hsz : half_full_rounds + part_rounds < 2 ^ 64) :
    (optimizer_sizes_loop Arity part_rounds).M_i = (state_words Arity, state_words Arity) ∧
    List.ofFn (optimizer_sizes_loop Arity part_rounds).w_hat_list
      = List.replicate part_rounds (state_words Arity - 1) ∧
    List.ofFn (optimizer_sizes_loop Arity part_rounds).v_list
      = List.replicate part_rounds (state_words Arity - 1) ∧
    (∀ (j : Fin part_rounds) (i : Nat), 1 ≤ i → i < state_words Arity →
      i - 1 < (optimizer_sizes_loop Arity part_rounds).v_list j) ∧
    (∀ j : Fin part_rounds,
      state_words Arity - 1 = (optimizer_sizes_loop Arity part_rounds).w_hat_list j) ∧
    (∀ round_number : Nat, half_full_rounds ≤ round_number →
      round_number < half_full_rounds + part_rounds →
      matrix_number_base half_full_rounds part_rounds round_number < part_rounds ∧
      get_v F Arity part_rounds
          (matrix_number_base half_full_rounds part_rounds round_number)
        ≠ Except.error Failure.out_of_range ∧
      get_w_hat F Arity part_rounds
          (matrix_number_base half_full_rounds part_rounds round_number)
        ≠ Except.error Failure.out_of_range) ∧
    ∀ t : equivalent_mds_matrix_type F Arity part_rounds,
      get_equivalent_mds_matrix F Arity part_rounds = Except.ok t →
        (List.ofFn t.w_hat_list).length = part_rounds ∧
        (List.ofFn t.v_list).length = part_rounds ∧
        ∀ j : Fin part_rounds, (List.ofFn (t.w_hat_list j)).length = state_words Arity - 1 ∧
          (List.ofFn (t.v_list j)).length = state_words Arity - 1 := by
  obtain ⟨h1, _, _, h4⟩ := optimizer_sizes_loop_spec Arity part_rounds
  have hw : (optimizer_sizes_loop Arity part_rounds).w_hat_list
      = fun _ => state_words Arity - 1 := funext (fun j => (h4 j).1)
  have hv : (optimizer_sizes_loop Arity part_rounds).v_list
      = fun _ => state_words Arity - 1 := funext (fun j => (h4 j).2)
  refine ⟨h1, ?_, ?_, ?_, ?_, ?_, ?_⟩
  · rw [hw, List.ofFn_const]
  · rw [hv, List.ofFn_const]
  · intro j i hi1 hi2
    rw [(h4 j).2]
    omega
  · intro j
    rw [(h4 j).1]
  · intro r hr1 hr2
    have hmb : matrix_number_base half_full_rounds part_rounds r < part_rounds := by
      rw [matrix_number_base_eq _ _ r hr1 hr2 hsz]
      omega
    refine ⟨hmb, ?_, ?_⟩
    · unfold get_v
      cases hget : get_equivalent_mds_matrix F Arity part_rounds with
      | error e =>
        by_cases hvalid : valid_parameters F Arity
        · rw [get_equivalent_mds_matrix_of_valid hvalid] at hget
          exact absurd hget (by simp)
        · rw [get_equivalent_mds_matrix_of_not_valid hvalid] at hget
          have he := Except.error.inj hget
          subst he
          simp
      | ok t => simp [hmb]
    · unfold get_w_hat
      cases hget : get_equivalent_mds_matrix F Arity part_rounds with
      | error e =>
        by_cases hvalid : valid_parameters F Arity
        · rw [get_equivalent_mds_matrix_of_valid hvalid] at hget
          exact absurd hget (by simp)
        · rw [get_equivalent_mds_matrix_of_not_valid hvalid] at hget
          have he := Except.error.inj hget
          subst he
          simp
      | ok t => simp [hmb]
  · intro t _
    simp [state_words]

/-- Witness of C14: the scenario `state_words = 3`, `half_full_rounds = 4`,
`part_rounds = 2` over the integers modulo 101. -/
theorem bundle_shapes_witness :
    4 + 2 < 2 ^ 64 ∧
    ((optimizer_sizes_loop 2 2).M_i = (state_words 2, state_words 2) ∧
    List.ofFn (optimizer_sizes_loop 2 2).w_hat_list = List.replicate 2 (state_words 2 - 1) ∧
    List.ofFn (optimizer_sizes_loop 2 2).v_list = List.replicate 2 (state_words 2 - 1) ∧
    (∀ (j : Fin 2) (i : Nat), 1 ≤ i → i < state_words 2 →
      i - 1 < (optimizer_sizes_loop 2 2).v_list j) ∧
    (∀ j : Fin 2, state_words 2 - 1 = (optimizer_sizes_loop 2 2).w_hat_list j) ∧
    (∀ round_number : Nat, 4 ≤ round_number → round_number < 4 + 2 →
      matrix_number_base 4 2 round_number < 2 ∧
      get_v (ZMod 101) 2 2 (matrix_number_base 4 2 round_number)
        ≠ Except.error Failure.out_of_range ∧
      get_w_hat (ZMod 101) 2 2 (matrix_number_base 4 2 round_number)
        ≠ Except.error Failure.out_of_range) ∧
    ∀ t : equivalent_mds_matrix_type (ZMod 101) 2 2,
      get_equivalent_mds_matrix (ZMod 101) 2 2 = Except.ok t →
        (List.ofFn t.w_hat_list).length = 2 ∧
        (List.ofFn t.v_list).length = 2 ∧
        ∀ j : Fin 2, (List.ofFn (t.w_hat_list j)).length = state_words 2 - 1 ∧
          (List.ofFn (t.v_list j)).length = state_words 2 - 1) :=
  ⟨by norm_num, bundle_shapes 2 4 2 (by norm_num)⟩

/-- C15: with an arbitrary function applied to word 0 of the state before the
linear layer of each round, and every sub-matrix that the loop of
`get_equivalent_mds_matrix` inverts non-singular, the optimised path (init,
then for `k = 0 .. part_rounds - 1` the function `f k` on word 0 and
`product_with_equivalent_mds_matrix` at round `half_full_rounds + k`) ends in
the same state as the dense path (for each `k` the function `f k` on word 0
and `product_with_mds_matrix`), and both succeed. -/
theorem optimized_rounds_with_eq_dense_rounds_with [DecidableEq F] {Arity : Nat}
    (f : Nat → F → F) (half_full_rounds part_rounds : Nat)
    (hsz : half_full_rounds + part_rounds < 2 ^ 64)
    (M : mds_matrix_type F Arity) (hM : get_mds_matrix F Arity = Except.ok M)
    (hns : ∀ k : Nat, k < part_rounds →
      ((optimizer_state_at part_rounds M k).M_mul.submatrix Fin.succ Fin.succ).det ≠ 0)
    (s : state_vector_type F Arity) :
    optimized_rounds_with f half_full_rounds part_rounds part_rounds s
      = dense_rounds_with f part_rounds s ∧
    (dense_rounds_with f part_rounds s).1 = Except.ok () := by
  obtain ⟨y, hy, hx⟩ :=
    rounds_with_eq f half_full_rounds part_rounds hsz M hM hns s part_rounds (le_refl _)
  rw [Nat.sub_self, pow_zero, ← one_eq_block, Matrix.vecMul_one] at hx
  rw [hx, hy]
  exact ⟨rfl, rfl⟩

/-- Witness of C15: the scenario `state_words = 3`, `half_full_rounds = 4`,
`part_rounds = 2`, modulus 101, input `[1, 2, 3]`, with the fifth power on
word 0 in every round. -/
theorem optimized_rounds_with_eq_dense_rounds_with_witness :
    (4 + 2 < 2 ^ 64 ∧
      get_mds_matrix (ZMod 101) 2 = Except.ok (mds_entries (ZMod 101) 2) ∧
      ∀ k : Nat, k < 2 →
        ((optimizer_state_at 2 (mds_entries (ZMod 101) 2) k).M_mul.submatrix
          Fin.succ Fin.succ).det ≠ 0) ∧
    (optimized_rounds_with (fun _ x => x ^ 5) 4 2 2
        (![1, 2, 3] : state_vector_type (ZMod 101) 2)
      = dense_rounds_with (fun _ x => x ^ 5) 2 (![1, 2, 3] : state_vector_type (ZMod 101) 2) ∧
    (dense_rounds_with (fun _ x => x ^ 5) 2
        (![1, 2, 3] : state_vector_type (ZMod 101) 2)).1 = Except.ok ()) :=
  ⟨⟨by norm_num, get_mds_matrix_of_valid valid_101,
      fun k hk => optimizer_submatrix_det_ne_zero valid_101 2 k (le_of_lt hk)⟩,
    optimized_rounds_with_eq_dense_rounds_with (fun _ x => x ^ 5) 4 2 (by norm_num)
      (mds_entries (ZMod 101) 2) (get_mds_matrix_of_valid valid_101)
      (fun k hk => optimizer_submatrix_det_ne_zero valid_101 2 k (le_of_lt hk)) ![1, 2, 3]⟩

/-- C16: with `H` the matrix of the loop of `get_equivalent_mds_matrix`
without its first row and column, the sub-matrix inverted in iteration `i` is
`H ^ (i + 1)`, column 0 of `M_mul` is column 0 of the matrix in every
iteration, the final `M_i` is `diag (1, H ^ part_rounds)`, and all the
`part_rounds` calls of `InvertMatrix` return true if and only if the first
one, on `H`, does. -/
theorem optimizer_submatrix_powers [DecidableEq F] {Arity : Nat} (part_rounds : Nat)
    (hpr : 1 ≤ part_rounds) (M : mds_matrix_type F Arity) :
    (∀ i : Nat, i < part_rounds →
      (optimizer_state_at part_rounds M i).M_mul.submatrix Fin.succ Fin.succ
        = (M.submatrix Fin.succ Fin.succ) ^ (i + 1)) ∧
    (∀ i : Nat, i ≤ part_rounds → ∀ r : Fin (Arity + 1),
      (optimizer_state_at part_rounds M i).M_mul r 0 = M r 0) ∧
    (optimizer_loop part_rounds M).M_i
      = block 1 0 0 ((M.submatrix Fin.succ Fin.succ) ^ part_rounds) ∧
    ((∀ i : Nat, i < part_rounds → ∀ M_hat_inverse : Matrix (Fin Arity) (Fin Arity) F,
        (InvertMatrix ((optimizer_state_at part_rounds M i).M_mul.submatrix
          Fin.succ Fin.succ) M_hat_inverse).1 = true) ↔
      ∀ M_hat_inverse : Matrix (Fin Arity) (Fin Arity) F,
        (InvertMatrix (M.submatrix Fin.succ Fin.succ) M_hat_inverse).1 = true) := by
  have hsub : ∀ i : Nat, i < part_rounds →
      (optimizer_state_at part_rounds M i).M_mul.submatrix Fin.succ Fin.succ
        = (M.submatrix Fin.succ Fin.succ) ^ (i + 1) :=
    fun i hi => optimizer_submatrix part_rounds M i (le_of_lt hi)
  refine ⟨hsub, ?_, ?_, ?_⟩
  · intro i hi r
    refine Fin.cases ?_ (fun r' => ?_) r
    · exact optimizer_corner part_rounds M i hi
    · exact optimizer_column part_rounds M i hi r'
  · rw [optimizer_loop_eq]
    exact (optimizer_state_at_spec part_rounds M part_rounds (le_refl _)).1
  · constructor
    · intro h M_hat_inverse
      have := h 0 (by omega) M_hat_inverse
      rw [hsub 0 (by omega)] at this
      simpa using this
    · intro h i hi M_hat_inverse
      rw [hsub i hi, InvertMatrix_flag, Matrix.det_pow]
      exact pow_ne_zero _ ((InvertMatrix_flag _ M_hat_inverse).mp (h M_hat_inverse))

/-- Witness of C16: `state_words = 3`, `part_rounds = 2` over the integers
modulo 101. -/
theorem optimizer_submatrix_powers_witness :
    1 ≤ 2 ∧
    ((∀ i : Nat, i < 2 →
      (optimizer_state_at 2 (mds_entries (ZMod 101) 2) i).M_mul.submatrix Fin.succ Fin.succ
        = ((mds_entries (ZMod 101) 2).submatrix Fin.succ Fin.succ) ^ (i + 1)) ∧
    (∀ i : Nat, i ≤ 2 → ∀ r : Fin (2 + 1),
      (optimizer_state_at 2 (mds_entries (ZMod 101) 2) i).M_mul r 0
        = mds_entries (ZMod 101) 2 r 0) ∧
    (optimizer_loop 2 (mds_entries (ZMod 101) 2)).M_i
      = block 1 0 0 (((mds_entries (ZMod 101) 2).submatrix Fin.succ Fin.succ) ^ 2) ∧
    ((∀ i : Nat, i < 2 → ∀ M_hat_inverse : Matrix (Fin 2) (Fin 2) (ZMod 101),
        (InvertMatrix ((optimizer_state_at 2 (mds_entries (ZMod 101) 2) i).M_mul.submatrix
          Fin.succ Fin.succ) M_hat_inverse).1 = true) ↔
      ∀ M_hat_inverse : Matrix (Fin 2) (Fin 2) (ZMod 101),
        (InvertMatrix ((mds_entries (ZMod 101) 2).submatrix Fin.succ Fin.succ)
          M_hat_inverse).1 = true)) :=
  ⟨by decide, optimizer_submatrix_powers 2 (by decide) (mds_entries (ZMod 101) 2)⟩

/-- C17: the matrix built by `get_mds_matrix` is symmetric, so the product
`state x MDS` that `product_with_mds_matrix` computes is also `MDS x state`. -/
theorem mds_matrix_symmetric [DecidableEq F] {Arity : Nat}
    (M : mds_matrix_type F Arity) (hM : get_mds_matrix F Arity = Except.ok M) :
    (∀ i j : Fin (state_words Arity), M i j = M j i) ∧
    ∀ state : state_vector_type F Arity,
      product_with_mds_matrix state = (Except.ok (), Matrix.vecMul state M) ∧
      Matrix.vecMul state M = Matrix.mulVec M state := by
  obtain ⟨_, rfl⟩ := valid_of_get_mds_matrix M hM
  have hsym : ∀ i j : Fin (state_words Arity), mds_entries F Arity i j = mds_entries F Arity j i := by
    intro i j
    simp only [mds_entries]
    congr 2
    omega
  refine ⟨hsym, fun state => ⟨by simp only [product_with_mds_matrix, hM], ?_⟩⟩
  funext j
  simp only [Matrix.vecMul, Matrix.mulVec, Matrix.dotProduct]
  exact Finset.sum_congr rfl (fun i _ => by rw [hsym i j, mul_comm])

/-- Witness of C17: `state_words = 3` over the integers modulo 101. -/
theorem mds_matrix_symmetric_witness :
    get_mds_matrix (ZMod 101) 2 = Except.ok (mds_entries (ZMod 101) 2) ∧
    ((∀ i j : Fin (state_words 2), mds_entries (ZMod 101) 2 i j = mds_entries (ZMod 101) 2 j i) ∧
    ∀ state : state_vector_type (ZMod 101) 2,
      product_with_mds_matrix state
        = (Except.ok (), Matrix.vecMul state (mds_entries (ZMod 101) 2)) ∧
      Matrix.vecMul state (mds_entries (ZMod 101) 2)
        = Matrix.mulVec (mds_entries (ZMod 101) 2) state) :=
  ⟨get_mds_matrix_of_valid valid_101,
    mds_matrix_symmetric (mds_entries (ZMod 101) 2) (get_mds_matrix_of_valid valid_101)⟩

end Proofs

end Poseidon
